import Mathlib

/-!
Verification of the protocol-translation proxy (dialect M "Messages" <->
dialect C "Chat Completions").

The development shallowly embeds the translation components of the
repository:

* `strip_hallucinated_tags` — the text sanitizer
  (src/api/transformers/openai_to_anthropic.rs);
* `transform_response` — the non-streaming C->M response translator;
* the `StreamTransformer` state machine (`process_chunk`, `finish`, …) —
  the streaming C->M translator;
* `transform_request` / `convert_content_blocks` — the M->C request
  translator (src/api/transformers/anthropic_to_openai.rs).

JSON documents are modelled by the inductive `JVal`; the external JSON
parser (serde_json) is abstracted: a streaming payload arrives either as
the literal terminator, as an unparsable string, or as a parsed `JVal`
(the code only ever inspects a payload through this trichotomy), and the
argument-string parser of the non-streaming path is a function parameter.
Randomness (UUID generation) is modelled by string/oracle parameters.
SHA-256 and standard base64 (the sha2 and base64 crates) are implemented
here from their public specifications.
-/

/-- A JSON value, as produced by the external JSON parser.  Integral
numbers are carried as `Int` (serde_json stores them as i64/u64 and
`as_u64`/`as_i64` succeed only on them); non-integral numbers are carried
as their decimal rendering and fail all integer accessors, as in
serde_json. -/
inductive JVal where
  | null : JVal
  | bool : Bool → JVal
  | int : Int → JVal
  | numF : String → JVal
  | str : String → JVal
  | arr : List JVal → JVal
  | obj : List (String × JVal) → JVal

/-- First-match field lookup in an object's field list. -/
def lookupField : List (String × JVal) → String → Option JVal
  | [], _ => none
  | (k, v) :: rest, key => if k == key then some v else lookupField rest key

namespace JVal

/-- Object field lookup, `Value::get` on objects; `None` on all other
variants. -/
def get : JVal → String → Option JVal
  | .obj fields, key => lookupField fields key
  | _, _ => none

/-- Value::as_str. -/
def asStr : JVal → Option String
  | .str s => some s
  | _ => none

/-- Value::as_bool. -/
def asBool : JVal → Option Bool
  | .bool b => some b
  | _ => none

/-- Value::as_u64: succeeds on non-negative stored integers. -/
def asU64 : JVal → Option Nat
  | .int n => if 0 ≤ n then some n.toNat else none
  | _ => none

/-- Value::as_i64: succeeds on stored integers in i64 range. -/
def asI64 : JVal → Option Int
  | .int n => if -(2 ^ 63) ≤ n ∧ n < 2 ^ 63 then some n else none
  | _ => none

/-- Value::as_array. -/
def asArrOpt : JVal → Option (List JVal)
  | .arr l => some l
  | _ => none

end JVal

/-- Replace-or-append a field in an object's field list. -/
def insertField : List (String × JVal) → String → JVal → List (String × JVal)
  | [], key, x => [(key, x)]
  | (k, v) :: rest, key, x =>
      if k == key then (key, x) :: rest else (k, v) :: insertField rest key x

/-- Insert-or-replace a field, the effect of `value[key] = x` on a JSON
object (non-objects are returned unchanged; the code only index-assigns
objects it has built itself). -/
def objInsert (v : JVal) (key : String) (x : JVal) : JVal :=
  match v with
  | .obj fields => .obj (insertField fields key x)
  | other => other

/-! ### Text sanitizer (strip_hallucinated_tags) -/

/-- Unicode White_Space property, the predicate behind Rust's
`char::is_whitespace` / `str::trim_start`. -/
def isRustWS (c : Char) : Bool :=
  (0x09 ≤ c.toNat && c.toNat ≤ 0x0D) || c.toNat == 0x20 || c.toNat == 0x85 ||
  c.toNat == 0xA0 || c.toNat == 0x1680 ||
  (0x2000 ≤ c.toNat && c.toNat ≤ 0x200A) || c.toNat == 0x2028 ||
  c.toNat == 0x2029 || c.toNat == 0x202F || c.toNat == 0x205F ||
  c.toNat == 0x3000

/-- Rust `str::trim_start`, on the character list of a string. -/
def rustTrimStart (l : List Char) : List Char := l.dropWhile isRustWS

/-- Rust `char::to_ascii_lowercase`. -/
def asciiLower (c : Char) : Char :=
  if 'A' ≤ c && c ≤ 'Z' then Char.ofNat (c.toNat + 32) else c

/-- Case-insensitive (ASCII) prefix test:
`trimmed.to_ascii_lowercase().starts_with(&tag.to_ascii_lowercase())`. -/
def lowerStartsWith (tag l : List Char) : Bool :=
  match tag, l with
  | [], _ => true
  | _ :: _, [] => false
  | t :: ts, c :: cs => asciiLower t == asciiLower c && lowerStartsWith ts cs

/-- The twelve literal tokens stripped by the sanitizer, in source order. -/
def TAGS : List (List Char) :=
  ["</thinking>".data, "<thinking>".data, "</thought>".data, "<thought>".data,
   "</reasoning>".data, "<reasoning>".data, "[End of Reasoning]".data,
   "[Reasoning]:".data, "Reasoning:".data, "Thought:".data,
   "\n\n".data, "\n".data]

/-- First tag (in source order) matching the front of `trimmed`,
case-insensitively. -/
def findTag (trimmed : List Char) : Option (List Char) :=
  TAGS.find? (fun tag => lowerStartsWith tag trimmed)

theorem lowerStartsWith_length_le {tag l : List Char}
    (h : lowerStartsWith tag l = true) : tag.length ≤ l.length := by
  induction tag generalizing l with
  | nil => simp
  | cons t ts ih =>
    cases l with
    | nil => simp [lowerStartsWith] at h
    | cons c cs =>
      simp only [lowerStartsWith, Bool.and_eq_true] at h
      simpa [Nat.succ_le_succ_iff] using ih h.2

theorem length_dropWhile_le_self (p : Char → Bool) (l : List Char) :
    (l.dropWhile p).length ≤ l.length := by
  induction l with
  | nil => simp
  | cons a l ih =>
    by_cases h : p a
    · simp only [List.dropWhile_cons_of_pos h]
      exact Nat.le_succ_of_le ih
    · simp [List.dropWhile_cons_of_neg h]

theorem findTag_pos {trimmed tag : List Char} (h : findTag trimmed = some tag) :
    0 < tag.length ∧ tag.length ≤ trimmed.length := by
  have hmem : tag ∈ TAGS := List.mem_of_find?_eq_some h
  have hpre : lowerStartsWith tag trimmed = true := by
    have := List.find?_some h
    simpa using this
  have hall : ∀ t ∈ TAGS, 0 < t.length := by decide
  exact ⟨hall tag hmem, lowerStartsWith_length_le hpre⟩

/-- The sanitizer loop: repeatedly trim leading whitespace, then strip the
first matching tag; on exit return the trimmed remainder. -/
def stripLoop (result : List Char) : List Char :=
  let trimmed := rustTrimStart result
  match h : findTag trimmed with
  | some tag => stripLoop (trimmed.drop tag.length)
  | none => trimmed
termination_by result.length
decreasing_by
  have hlen := findTag_pos h
  have htr : (rustTrimStart result).length ≤ result.length :=
    length_dropWhile_le_self isRustWS result
  have h1 : 0 < (rustTrimStart result).length := lt_of_lt_of_le hlen.1 hlen.2
  simp only [List.length_drop]
  omega

/-- Strip leading tags hallucinated by the model at the start of a text
block (openai_to_anthropic.rs, `strip_hallucinated_tags`).  The final
`trim_start` of the source is the identity here because the loop exits
with an already-trimmed remainder. -/
def strip_hallucinated_tags (content : String) : String :=
  String.mk (stripLoop content.data)

theorem dropWhile_self_idem (p : Char → Bool) (l : List Char) :
    (l.dropWhile p).dropWhile p = l.dropWhile p := by
  induction l with
  | nil => simp
  | cons a l ih =>
    by_cases h : p a
    · simpa [List.dropWhile_cons_of_pos h] using ih
    · simp [List.dropWhile_cons_of_neg h]

theorem stripLoop_eq_unfold (r : List Char) :
    stripLoop r =
      match findTag (rustTrimStart r) with
      | some tag => stripLoop ((rustTrimStart r).drop tag.length)
      | none => rustTrimStart r := by
  rw [stripLoop]
  split <;> rename_i htag <;> rw [htag]

/-- On exit, the sanitizer loop's result is whitespace-trimmed and matches
no tag, so one more pass through the loop is the identity. -/
theorem stripLoop_fixes :
    ∀ (n : Nat) (r : List Char), r.length ≤ n →
      rustTrimStart (stripLoop r) = stripLoop r ∧ findTag (stripLoop r) = none := by
  intro n
  induction n with
  | zero =>
    intro r hr
    cases hf : findTag (rustTrimStart r) with
    | some tag =>
      obtain ⟨hp1, hp2⟩ := findTag_pos hf
      have htr : (rustTrimStart r).length ≤ r.length :=
        length_dropWhile_le_self isRustWS r
      omega
    | none =>
      have hs : stripLoop r = rustTrimStart r := by rw [stripLoop_eq_unfold, hf]
      refine ⟨?_, ?_⟩
      · rw [hs]; exact dropWhile_self_idem isRustWS r
      · rw [hs]; exact hf
  | succ n ih =>
    intro r hr
    cases hf : findTag (rustTrimStart r) with
    | some tag =>
      have hs : stripLoop r = stripLoop ((rustTrimStart r).drop tag.length) := by
        rw [stripLoop_eq_unfold, hf]
      rw [hs]
      refine ih _ ?_
      obtain ⟨hp1, hp2⟩ := findTag_pos hf
      have htr : (rustTrimStart r).length ≤ r.length :=
        length_dropWhile_le_self isRustWS r
      simp only [List.length_drop]
      omega
    | none =>
      have hs : stripLoop r = rustTrimStart r := by rw [stripLoop_eq_unfold, hf]
      refine ⟨?_, ?_⟩
      · rw [hs]; exact dropWhile_self_idem isRustWS r
      · rw [hs]; exact hf

theorem stripLoop_idem (l : List Char) : stripLoop (stripLoop l) = stripLoop l := by
  obtain ⟨h1, h2⟩ := stripLoop_fixes l.length l le_rfl
  rw [stripLoop_eq_unfold, h1, h2]

/-! ### SHA-256 and base64 (the sha2 / base64 crates, modelled from their
public specifications: FIPS 180-4 and RFC 4648 standard alphabet with
padding) -/

/-- Word mask for 32-bit arithmetic. -/
def w32 (n : Nat) : Nat := n % 4294967296

/-- Rotate a 32-bit word right by `n` bits. -/
def rotr32 (x n : Nat) : Nat := w32 ((x >>> n) ||| (x <<< (32 - n)))

/-- Bitwise complement of a 32-bit word. -/
def not32 (x : Nat) : Nat := 4294967295 ^^^ x

/-- The 64 SHA-256 round constants. -/
def sha256K : List Nat :=
  [1116352408, 1899447441, 3049323471, 3921009573, 961987163, 1508970993,
   2453635748, 2870763221, 3624381080, 310598401, 607225278, 1426881987,
   1925078388, 2162078206, 2614888103, 3248222580, 3835390401, 4022224774,
   264347078, 604807628, 770255983, 1249150122, 1555081692, 1996064986,
   2554220882, 2821834349, 2952996808, 3210313671, 3336571891, 3584528711,
   113926993, 338241895, 666307205, 773529912, 1294757372, 1396182291,
   1695183700, 1986661051, 2177026350, 2456956037, 2730485921, 2820302411,
   3259730800, 3345764771, 3516065817, 3600352804, 4094571909, 275423344,
   430227734, 506948616, 659060556, 883997877, 958139571, 1322822218,
   1537002063, 1747873779, 1955562222, 2024104815, 2227730452, 2361852424,
   2428436474, 2756734187, 3204031479, 3329325298]

/-- SHA-256 working state: eight 32-bit words. -/
structure Sha256St where
  a : Nat
  b : Nat
  c : Nat
  d : Nat
  e : Nat
  f : Nat
  g : Nat
  h : Nat

/-- One SHA-256 compression round, given the schedule word, round constant
and current working state. -/
def sha256Round (st : Sha256St) (kw : Nat × Nat) : Sha256St :=
  let s1 := (rotr32 st.e 6) ^^^ (rotr32 st.e 11) ^^^ (rotr32 st.e 25)
  let ch := (st.e &&& st.f) ^^^ ((not32 st.e) &&& st.g)
  let t1 := w32 (st.h + s1 + ch + kw.1 + kw.2)
  let s0 := (rotr32 st.a 2) ^^^ (rotr32 st.a 13) ^^^ (rotr32 st.a 22)
  let mj := (st.a &&& st.b) ^^^ (st.a &&& st.c) ^^^ (st.b &&& st.c)
  let t2 := w32 (s0 + mj)
  ⟨w32 (t1 + t2), st.a, st.b, st.c, w32 (st.d + t1), st.e, st.f, st.g⟩

/-- Big-endian packing of a byte list into 32-bit words (4 bytes each). -/
def bytesToWords : List Nat → List Nat
  | b0 :: b1 :: b2 :: b3 :: rest =>
      ((b0 <<< 24) ||| (b1 <<< 16) ||| (b2 <<< 8) ||| b3) :: bytesToWords rest
  | _ => []

/-- Extend a 16-word block by `k` further schedule words. -/
def sha256Extend (ws : List Nat) : Nat → List Nat
  | 0 => ws
  | k + 1 =>
      let n := ws.length
      let x15 := ws.getD (n - 15) 0
      let x2 := ws.getD (n - 2) 0
      let s0 := (rotr32 x15 7) ^^^ (rotr32 x15 18) ^^^ (x15 >>> 3)
      let s1 := (rotr32 x2 17) ^^^ (rotr32 x2 19) ^^^ (x2 >>> 10)
      let nw := w32 (ws.getD (n - 16) 0 + s0 + ws.getD (n - 7) 0 + s1)
      sha256Extend (ws ++ [nw]) k

/-- Compress one 64-byte block into the running hash (eight words). -/
def sha256Block (hs : List Nat) (block : List Nat) : List Nat :=
  let ws := sha256Extend (bytesToWords block) 48
  let st0 : Sha256St :=
    ⟨hs.getD 0 0, hs.getD 1 0, hs.getD 2 0, hs.getD 3 0,
     hs.getD 4 0, hs.getD 5 0, hs.getD 6 0, hs.getD 7 0⟩
  let st := (ws.zip sha256K).foldl sha256Round st0
  [w32 (hs.getD 0 0 + st.a), w32 (hs.getD 1 0 + st.b), w32 (hs.getD 2 0 + st.c),
   w32 (hs.getD 3 0 + st.d), w32 (hs.getD 4 0 + st.e), w32 (hs.getD 5 0 + st.f),
   w32 (hs.getD 6 0 + st.g), w32 (hs.getD 7 0 + st.h)]

/-- Split a byte list into 64-byte blocks. -/
def chunks64 (l : List Nat) : List (List Nat) :=
  if l = [] then []
  else l.take 64 :: chunks64 (l.drop 64)
termination_by l.length
decreasing_by
  simp only [List.length_drop]
  have : l.length ≠ 0 := fun h => by simp [List.length_eq_zero.mp h] at *
  omega

/-- SHA-256 padding: append 0x80, zero bytes to 56 mod 64, then the
64-bit big-endian bit length. -/
def sha256Pad (msg : List Nat) : List Nat :=
  let len := msg.length
  let zeros := List.replicate ((119 - len % 64) % 64) 0
  let bitLen := 8 * len
  msg ++ [0x80] ++ zeros ++
    [(bitLen >>> 56) % 256, (bitLen >>> 48) % 256, (bitLen >>> 40) % 256,
     (bitLen >>> 32) % 256, (bitLen >>> 24) % 256, (bitLen >>> 16) % 256,
     (bitLen >>> 8) % 256, bitLen % 256]

/-- Big-endian unpacking of 32-bit words into bytes. -/
def wordsToBytes : List Nat → List Nat
  | [] => []
  | w :: rest =>
      (w >>> 24) % 256 :: (w >>> 16) % 256 :: (w >>> 8) % 256 :: w % 256 ::
        wordsToBytes rest

/-- SHA-256 digest (32 bytes) of a byte list. -/
def sha256 (msg : List Nat) : List Nat :=
  let h0 : List Nat :=
    [1779033703, 3144134277, 1013904242, 2773480762,
     1359893119, 2600822924, 528734635, 1541459225]
  wordsToBytes ((chunks64 (sha256Pad msg)).foldl sha256Block h0)

/-- UTF-8 encoding of one character. -/
def utf8Bytes (c : Char) : List Nat :=
  let n := c.toNat
  if n < 0x80 then [n]
  else if n < 0x800 then
    [0xC0 ||| (n >>> 6), 0x80 ||| (n &&& 0x3F)]
  else if n < 0x10000 then
    [0xE0 ||| (n >>> 12), 0x80 ||| ((n >>> 6) &&& 0x3F), 0x80 ||| (n &&& 0x3F)]
  else
    [0xF0 ||| (n >>> 18), 0x80 ||| ((n >>> 12) &&& 0x3F),
     0x80 ||| ((n >>> 6) &&& 0x3F), 0x80 ||| (n &&& 0x3F)]

/-- UTF-8 bytes of a string. -/
def strBytes (s : String) : List Nat := (s.data.map utf8Bytes).flatten

/-- The standard base64 alphabet. -/
def b64Alphabet : List Char :=
  "ABCDEFGHIJKLMNOPQRSTUVWXYZabcdefghijklmnopqrstuvwxyz0123456789+/".data

/-- Character for a 6-bit group. -/
def b64Char (n : Nat) : Char := b64Alphabet.getD n 'A'

/-- Standard base64 encoding with padding of a byte list. -/
def base64Encode : List Nat → List Char
  | [] => []
  | [b0] =>
      [b64Char (b0 >>> 2), b64Char ((b0 &&& 3) <<< 4), '=', '=']
  | [b0, b1] =>
      [b64Char (b0 >>> 2), b64Char (((b0 &&& 3) <<< 4) ||| (b1 >>> 4)),
       b64Char ((b1 &&& 15) <<< 2), '=']
  | b0 :: b1 :: b2 :: rest =>
      b64Char (b0 >>> 2) :: b64Char (((b0 &&& 3) <<< 4) ||| (b1 >>> 4)) ::
      b64Char (((b1 &&& 15) <<< 2) ||| (b2 >>> 6)) :: b64Char (b2 &&& 63) ::
      base64Encode rest

/-- Signature of a thinking block: base64 of the SHA-256 of the UTF-8
bytes of the accumulated thinking text (openai_to_anthropic.rs,
`generate_signature`). -/
def generate_signature (thinking_content : String) : String :=
  String.mk (base64Encode (sha256 (strBytes thinking_content)))

/-! ### Streaming data model (dialect-M frames) -/

/-- Content-block header carried by a `content_block_start` frame. -/
inductive CBlock where
  | text : CBlock
  | thinking : CBlock
  | tool_use : String → String → CBlock
  | tool_result : String → Bool → CBlock
deriving Repr, DecidableEq

/-- Delta carried by a `content_block_delta` frame. -/
inductive BDelta where
  | text_delta : String → BDelta
  | input_json_delta : String → BDelta
  | thinking_delta : String → BDelta
  | signature_delta : String → BDelta
  | content_delta : String → BDelta
deriving Repr, DecidableEq

/-- A dialect-M streaming frame (one `event:`/`data:` SSE record).  The
fields carried are the data of the JSON document serialized by
`format_sse`: message id and model for `message_start`; block index and
header or delta for block frames; stop reason and output-token count for
`message_delta`. -/
inductive Frame where
  | message_start : String → String → Frame
  | content_block_start : Int → CBlock → Frame
  | content_block_delta : Int → BDelta → Frame
  | content_block_stop : Int → Frame
  | message_delta : String → Nat → Frame
  | message_stop : Frame
deriving Repr, DecidableEq

/-- A decoded SSE payload, as the stream translator observes it: the
literal `[DONE]` terminator (after trimming), a string that fails JSON
parsing, or the parsed JSON document. -/
inductive Payload where
  | done : Payload
  | unparsed : Payload
  | parsed : JVal → Payload

/-- State of the streaming `StreamTransformer` (openai_to_anthropic.rs). -/
structure TrSt where
  model : String
  msg_id : String
  content_index : Int
  in_thinking : Bool
  in_tool_call : Bool
  in_tool_result : Bool
  current_tool_id : String
  current_tool_name : String
  current_tool_args : String
  current_tool_result : String
  current_tool_result_id : String
  current_tool_result_is_error : Bool
  started : Bool
  input_tokens : Nat
  output_tokens : Nat
  last_finish_reason : Option String
  tool_call_index : Option Int
  in_text_block : Bool
  finished : Bool
  thinking_content : String

/-- StreamTransformer::new: fresh state; `msgHex` models the random UUID
hex string used for the message id. -/
def STnew (model msgHex : String) : TrSt where
  model := model
  msg_id := "msg_" ++ msgHex.take 24
  content_index := -1
  in_thinking := false
  in_tool_call := false
  in_tool_result := false
  current_tool_id := ""
  current_tool_name := ""
  current_tool_args := ""
  current_tool_result := ""
  current_tool_result_id := ""
  current_tool_result_is_error := false
  started := false
  input_tokens := 0
  output_tokens := 0
  last_finish_reason := none
  tool_call_index := none
  in_text_block := false
  finished := false
  thinking_content := ""

/-- Map OpenAI finish_reason to Anthropic stop_reason. -/
def map_stop_reason (finish_reason : String) : String :=
  if finish_reason == "stop" then "end_turn"
  else if finish_reason == "tool_calls" then "tool_use"
  else if finish_reason == "length" then "max_tokens"
  else if finish_reason == "content_filter" then "end_turn"
  else "end_turn"

/-- Stop reason of the terminal message_delta:
`last_finish_reason.as_deref().map(map_stop_reason).unwrap_or("end_turn")`. -/
def stopReasonOf : Option String → String
  | some fr => map_stop_reason fr
  | none => "end_turn"

/-- Wrapping cast to i32, for the `as i32` on a tool-call entry index. -/
def wrapI32 (n : Int) : Int := (n + 2 ^ 31) % 2 ^ 32 - 2 ^ 31

/-- StreamTransformer::close_current_block: emit the signature delta when
a thinking block is open, emit `content_block_stop` when any block is
open, clear all four block flags. -/
def close_current_block (s : TrSt) : TrSt × List Frame :=
  let sigE : List Frame :=
    if s.in_thinking then
      [Frame.content_block_delta s.content_index
        (BDelta.signature_delta (generate_signature s.thinking_content))]
    else []
  let s1 := if s.in_thinking then { s with thinking_content := "" } else s
  let stopE : List Frame :=
    if s.in_thinking || s.in_tool_call || s.in_text_block || s.in_tool_result then
      [Frame.content_block_stop s.content_index]
    else []
  ({ s1 with
      in_thinking := false
      in_tool_call := false
      in_text_block := false
      in_tool_result := false },
   sigE ++ stopE)

/-- StreamTransformer::process_thinking_content. -/
def process_thinking_content (s : TrSt) (reasoning : String) : TrSt × List Frame :=
  if reasoning ≠ "" then
    let r1 : TrSt × List Frame :=
      if !s.in_thinking then
        let rc := close_current_block s
        let s1 := { rc.1 with
                      in_thinking := true
                      thinking_content := ""
                      content_index := rc.1.content_index + 1 }
        (s1, rc.2 ++ [Frame.content_block_start s1.content_index CBlock.thinking])
      else (s, [])
    let s1 := r1.1
    let s2 := { s1 with thinking_content := s1.thinking_content ++ reasoning }
    (s2, r1.2 ++ [Frame.content_block_delta s2.content_index
                    (BDelta.thinking_delta reasoning)])
  else (s, [])

/-- One entry of the `tool_calls` array inside
StreamTransformer::process_tool_calls. -/
def process_tool_call_entry (s : TrSt) (tc : JVal) : TrSt × List Frame :=
  let tcIndex := wrapI32 (((tc.get "index").bind JVal.asI64).getD 0)
  let func := (tc.get "function").getD (JVal.obj [])
  let r1 : TrSt × List Frame :=
    match (tc.get "id").bind JVal.asStr with
    | some id =>
        let rc := close_current_block s
        let name := ((func.get "name").bind JVal.asStr).getD ""
        let s1 := { rc.1 with
                      in_tool_call := true
                      tool_call_index := some tcIndex
                      current_tool_id := id
                      current_tool_name := name
                      current_tool_args := ""
                      content_index := rc.1.content_index + 1 }
        (s1, rc.2 ++ [Frame.content_block_start s1.content_index
                        (CBlock.tool_use id name)])
    | none => (s, [])
  let s1 := r1.1
  match (func.get "arguments").bind JVal.asStr with
  | some args =>
      if args ≠ "" then
        let s2 := { s1 with current_tool_args := s1.current_tool_args ++ args }
        (s2, r1.2 ++ [Frame.content_block_delta s2.content_index
                        (BDelta.input_json_delta args)])
      else (s1, r1.2)
  | none => (s1, r1.2)

/-- StreamTransformer::process_tool_calls, a fold over the entries. -/
def process_tool_calls (s : TrSt) : List JVal → TrSt × List Frame
  | [] => (s, [])
  | tc :: rest =>
      let r := process_tool_call_entry s tc
      let r2 := process_tool_calls r.1 rest
      (r2.1, r.2 ++ r2.2)

/-- StreamTransformer::process_tool_result_start. -/
def process_tool_result_start (s : TrSt) (delta : JVal) : TrSt × List Frame :=
  let rc := close_current_block s
  let tid := ((delta.get "tool_call_id").bind JVal.asStr).getD ""
  if tid ≠ "" && !rc.1.in_tool_result then
    let isErr := ((delta.get "is_error").bind JVal.asBool).getD false
    let s1 := { rc.1 with
                  in_tool_result := true
                  current_tool_result_id := tid
                  current_tool_result := ""
                  current_tool_result_is_error := isErr
                  content_index := rc.1.content_index + 1 }
    (s1, rc.2 ++ [Frame.content_block_start s1.content_index
                    (CBlock.tool_result tid isErr)])
  else (rc.1, rc.2)

/-- StreamTransformer::process_tool_result_content. -/
def process_tool_result_content (s : TrSt) (content : String) : TrSt × List Frame :=
  let s1 := { s with current_tool_result := s.current_tool_result ++ content }
  (s1, [Frame.content_block_delta s1.content_index (BDelta.content_delta content)])

/-- StreamTransformer::process_text_content. -/
def process_text_content (s : TrSt) (content : String) : TrSt × List Frame :=
  if !s.in_text_block then
    let filtered := strip_hallucinated_tags content
    if filtered ≠ "" then
      let rc := close_current_block s
      let s1 := { rc.1 with
                    in_text_block := true
                    content_index := rc.1.content_index + 1 }
      (s1, rc.2 ++ [Frame.content_block_start s1.content_index CBlock.text,
                    Frame.content_block_delta s1.content_index
                      (BDelta.text_delta filtered)])
    else (s, [])
  else (s, [Frame.content_block_delta s.content_index (BDelta.text_delta content)])

/-- Record a non-null string finish_reason from a choice. -/
def storeFinishReason (s : TrSt) (choice : JVal) : TrSt :=
  match (choice.get "finish_reason").bind JVal.asStr with
  | some fr => { s with last_finish_reason := some fr }
  | none => s

/-- Update usage counters from a chunk's `usage` object. -/
def updateUsage (s : TrSt) (chunk : JVal) : TrSt :=
  match chunk.get "usage" with
  | some usage =>
      let s1 := match (usage.get "prompt_tokens").bind JVal.asU64 with
        | some pt => { s with input_tokens := pt }
        | none => s
      match (usage.get "completion_tokens").bind JVal.asU64 with
      | some ct => { s1 with output_tokens := ct }
      | none => s1
  | none => s

/-- Reasoning-content handling of one choice's delta. -/
def step_thinking (s : TrSt) (delta : JVal) : TrSt × List Frame :=
  match (delta.get "reasoning_content").bind JVal.asStr with
  | some reasoning => process_thinking_content s reasoning
  | none => (s, [])

/-- Tool-calls handling of one choice's delta. -/
def step_tool_calls (s : TrSt) (delta : JVal) : TrSt × List Frame :=
  match delta.get "tool_calls" with
  | some (.arr tool_calls) => process_tool_calls s tool_calls
  | _ => (s, [])

/-- Tool-result-start handling of one choice's delta.  Note the source
guard: the role field must be present as a string for this branch to be
reached at all; `tool_call_id` alone does not trigger it. -/
def step_tool_result (s : TrSt) (delta : JVal) : TrSt × List Frame :=
  match (delta.get "role").bind JVal.asStr with
  | some role =>
      if role == "tool" || (delta.get "tool_call_id").isSome then
        process_tool_result_start s delta
      else (s, [])
  | none => (s, [])

/-- Tool-result-content handling of one choice's delta. -/
def step_tool_result_content (s : TrSt) (delta : JVal) : TrSt × List Frame :=
  if s.in_tool_result then
    match (delta.get "content").bind JVal.asStr with
    | some content => if content ≠ "" then process_tool_result_content s content
                      else (s, [])
    | none => (s, [])
  else (s, [])

/-- Regular text-content handling of one choice's delta. -/
def step_text (s : TrSt) (delta : JVal) : TrSt × List Frame :=
  match (delta.get "content").bind JVal.asStr with
  | some content =>
      if content ≠ "" && !s.in_tool_result then process_text_content s content
      else (s, [])
  | none => (s, [])

/-- Processing of one element of `choices` (the body of the `for choice`
loop in StreamTransformer::process_chunk).  A choice without a `delta`
field is skipped entirely (its finish_reason is not recorded). -/
def process_choice (s : TrSt) (choice : JVal) : TrSt × List Frame :=
  match choice.get "delta" with
  | none => (s, [])
  | some delta =>
      let s0 := storeFinishReason s choice
      let r1 := step_thinking s0 delta
      let r2 := step_tool_calls r1.1 delta
      let r3 := step_tool_result r2.1 delta
      let r4 := step_tool_result_content r3.1 delta
      let r5 := step_text r4.1 delta
      (r5.1, r1.2 ++ (r2.2 ++ (r3.2 ++ (r4.2 ++ r5.2))))

/-- Fold of `process_choice` over the choices array. -/
def process_choices (s : TrSt) : List JVal → TrSt × List Frame
  | [] => (s, [])
  | c :: rest =>
      let r := process_choice s c
      let r2 := process_choices r.1 rest
      (r2.1, r.2 ++ r2.2)

/-- Terminal frames: the final message_delta and message_stop. -/
def terminalEvents (s : TrSt) : List Frame :=
  [Frame.message_delta (stopReasonOf s.last_finish_reason) s.output_tokens,
   Frame.message_stop]

/-- StreamTransformer::process_chunk on one decoded payload. -/
def process_chunk (s : TrSt) (p : Payload) : TrSt × List Frame :=
  match p with
  | .done =>
      let s0 := { s with finished := true }
      let rc := close_current_block s0
      (rc.1, rc.2 ++ terminalEvents rc.1)
  | .unparsed => (s, [])
  | .parsed chunk =>
      let s1 := updateUsage s chunk
      match chunk.get "choices" with
      | some (.arr choices) => process_choices s1 choices
      | _ => (s1, [])

/-- StreamTransformer::start_event. -/
def start_event (s : TrSt) : TrSt × List Frame :=
  ({ s with started := true }, [Frame.message_start s.msg_id s.model])

/-- StreamTransformer::finish: terminal frames unless `[DONE]` already
emitted them. -/
def finish (s : TrSt) : TrSt × List Frame :=
  if s.finished then (s, [])
  else
    let rc := close_current_block s
    (rc.1, rc.2 ++ terminalEvents rc.1)

/-- Fold of `process_chunk` over a payload sequence. -/
def runChunks (s : TrSt) : List Payload → TrSt × List Frame
  | [] => (s, [])
  | p :: rest =>
      let r := process_chunk s p
      let r2 := runChunks r.1 rest
      (r2.1, r.2 ++ r2.2)

/-- Full lifecycle of one streaming response: start(), process each
payload, finish(); the concatenated emitted frame trace. -/
def runAll (model msgHex : String) (ps : List Payload) : List Frame :=
  let r0 := start_event (STnew model msgHex)
  let r1 := runChunks r0.1 ps
  let r2 := finish r1.1
  r0.2 ++ r1.2 ++ r2.2

/-! ### JSON serialization (serde_json::to_string, compact) -/

/-- Escape of one character inside a JSON string literal, as serde_json
writes it (quote, backslash, the named control escapes, `\u00XX` with
lowercase hex for the other control characters; non-ASCII is written
raw). -/
def jsonEscapeChar (c : Char) : List Char :=
  if c = '"' then ['\\', '"']
  else if c = '\\' then ['\\', '\\']
  else if c = '\x08' then ['\\', 'b']
  else if c = '\x0c' then ['\\', 'f']
  else if c = '\n' then ['\\', 'n']
  else if c = '\r' then ['\\', 'r']
  else if c = '\t' then ['\\', 't']
  else if c.toNat < 0x20 then
    ['\\', 'u', '0', '0', "0123456789abcdef".data.getD (c.toNat / 16) '0',
     "0123456789abcdef".data.getD (c.toNat % 16) '0']
  else [c]

/-- JSON string literal for a string value. -/
def jsonQuote (s : String) : String :=
  String.mk ('"' :: (s.data.map jsonEscapeChar).flatten ++ ['"'])

mutual

/-- Compact JSON rendering of a value, `serde_json::to_string`. -/
def jsonToString : JVal → String
  | .null => "null"
  | .bool true => "true"
  | .bool false => "false"
  | .int n => toString n
  | .numF s => s
  | .str s => jsonQuote s
  | .arr l => "[" ++ jsonArrToString l ++ "]"
  | .obj fields => "\x7b" ++ jsonObjToString fields ++ "\x7d"

/-- Comma-separated rendering of array elements. -/
def jsonArrToString : List JVal → String
  | [] => ""
  | [x] => jsonToString x
  | x :: y :: rest => jsonToString x ++ "," ++ jsonArrToString (y :: rest)

/-- Comma-separated rendering of object fields. -/
def jsonObjToString : List (String × JVal) → String
  | [] => ""
  | [(k, v)] => jsonQuote k ++ ":" ++ jsonToString v
  | (k, v) :: f :: rest =>
      jsonQuote k ++ ":" ++ jsonToString v ++ "," ++ jsonObjToString (f :: rest)

end

/-! ### M->C request translator (anthropic_to_openai.rs) -/

/-- Join the `text` fields of `type == "text"` blocks with newlines (the
inline lambda used for system blocks and tool_result content in
anthropic_to_openai.rs). -/
def joinTextBlocks (blocks : List JVal) : String :=
  String.intercalate "\n"
    (blocks.filterMap fun b =>
      if (b.get "type").bind JVal.asStr == some "text" then
        (b.get "text").bind JVal.asStr
      else none)

/-- Block type with the source's `"text"` default. -/
def blockType (b : JVal) : String :=
  ((b.get "type").bind JVal.asStr).getD "text"

/-- One step of the user-role block loop: accumulated parts and emitted
messages. -/
def userBlockStep (acc : List JVal × List JVal) (block : JVal) :
    List JVal × List JVal :=
  let parts := acc.1
  let messages := acc.2
  match blockType block with
  | "text" =>
      (parts ++ [JVal.obj [("type", .str "text"),
                           ("text", (block.get "text").getD (.str ""))]],
       messages)
  | "image" =>
      match block.get "source" with
      | some source =>
          let mediaType := ((source.get "media_type").bind JVal.asStr).getD "image/png"
          let data := ((source.get "data").bind JVal.asStr).getD ""
          (parts ++ [JVal.obj [("type", .str "image_url"),
                               ("image_url", JVal.obj [("url",
                                 .str ("data:" ++ mediaType ++ ";base64," ++ data))])]],
           messages)
      | none => (parts, messages)
  | "tool_result" =>
      let toolUseId := ((block.get "tool_use_id").bind JVal.asStr).getD ""
      let content : String :=
        match block.get "content" with
        | some (.str s) => s
        | some (.arr a) => joinTextBlocks a
        | _ => ""
      let messages1 :=
        if !parts.isEmpty then
          messages ++ [JVal.obj [("role", .str "user"), ("content", .arr parts)]]
        else messages
      ([], messages1 ++ [JVal.obj [("role", .str "tool"),
                                   ("tool_call_id", .str toolUseId),
                                   ("content", .str content)]])
  | _ => (parts, messages)

/-- Concatenated text of an assistant message's blocks (fold state of the
assistant branch). -/
def assistantStep (acc : String × List JVal) (block : JVal) : String × List JVal :=
  match blockType block with
  | "text" =>
      match (block.get "text").bind JVal.asStr with
      | some t => (acc.1 ++ t, acc.2)
      | none => acc
  | "tool_use" =>
      let id := ((block.get "id").bind JVal.asStr).getD ""
      let name := ((block.get "name").bind JVal.asStr).getD ""
      let input := (block.get "input").getD (JVal.obj [])
      (acc.1, acc.2 ++ [JVal.obj [("id", .str id), ("type", .str "function"),
                                  ("function", JVal.obj [("name", .str name),
                                    ("arguments", .str (jsonToString input))])]])
  | _ => acc

/-- anthropic_to_openai.rs `convert_content_blocks`: convert one dialect-M
message's block-array content, appending the produced dialect-C messages. -/
def convert_content_blocks (role : String) (blocks : List JVal)
    (messages : List JVal) : List JVal :=
  if role == "user" then
    let r := blocks.foldl userBlockStep ([], messages)
    if !r.1.isEmpty then
      r.2 ++ [JVal.obj [("role", .str "user"), ("content", .arr r.1)]]
    else r.2
  else if role == "assistant" then
    let r := blocks.foldl assistantStep ("", [])
    let m0 := JVal.obj [("role", .str "assistant")]
    let m1 := if r.1 ≠ "" then objInsert m0 "content" (.str r.1) else m0
    let m2 := if !r.2.isEmpty then objInsert m1 "tool_calls" (.arr r.2) else m1
    messages ++ [m2]
  else
    let text := String.intercalate "\n"
      (blocks.filterMap fun b => (b.get "text").bind JVal.asStr)
    messages ++ [JVal.obj [("role", .str role), ("content", .str text)]]

/-- One dialect-M message of the `messages` array. -/
def convertMessage (acc : List JVal) (msg : JVal) : List JVal :=
  let role := ((msg.get "role").bind JVal.asStr).getD "user"
  match msg.get "content" with
  | some (.str text) =>
      acc ++ [JVal.obj [("role", .str role), ("content", .str text)]]
  | some (.arr blocks) => convert_content_blocks role blocks acc
  | _ => acc

/-- System-message prefix of the dialect-C messages array. -/
def systemMessages (body : JVal) : List JVal :=
  match body.get "system" with
  | some (.str s) => [JVal.obj [("role", .str "system"), ("content", .str s)]]
  | some (.arr blocks) =>
      let text := joinTextBlocks blocks
      if text ≠ "" then
        [JVal.obj [("role", .str "system"), ("content", .str text)]]
      else []
  | _ => []

/-- The converted messages array. -/
def convertedMessages (body : JVal) : List JVal :=
  match body.get "messages" with
  | some (.arr messages) => messages.foldl convertMessage (systemMessages body)
  | _ => systemMessages body

/-- Pass-through of the optional `temperature`. -/
def addTemperature (body b : JVal) : JVal :=
  match body.get "temperature" with
  | some t => objInsert b "temperature" t
  | none => b

/-- Pass-through of the optional `top_p`. -/
def addTopP (body b : JVal) : JVal :=
  match body.get "top_p" with
  | some t => objInsert b "top_p" t
  | none => b

/-- Copy of `stop_sequences` to `stop`. -/
def addStop (body b : JVal) : JVal :=
  match body.get "stop_sequences" with
  | some (.arr stop) => objInsert b "stop" (.arr stop)
  | _ => b

/-- Tools wrapping and — only inside this branch — the tool_choice
mapping. -/
def addTools (body b : JVal) : JVal :=
  match body.get "tools" with
  | some (.arr tools) =>
      let openaiTools := tools.map fun tool =>
        JVal.obj [("type", .str "function"),
                  ("function", JVal.obj
                    [("name", (tool.get "name").getD (.str "")),
                     ("description", (tool.get "description").getD (.str "")),
                     ("parameters", (tool.get "input_schema").getD (.obj []))])]
      let bA := objInsert b "tools" (.arr openaiTools)
      match body.get "tool_choice" with
      | some tc =>
          let tcType := ((tc.get "type").bind JVal.asStr).getD "auto"
          if tcType == "auto" then objInsert bA "tool_choice" (.str "auto")
          else if tcType == "any" then objInsert bA "tool_choice" (.str "required")
          else if tcType == "tool" then
            match (tc.get "name").bind JVal.asStr with
            | some name =>
                objInsert bA "tool_choice"
                  (JVal.obj [("type", .str "function"),
                             ("function", JVal.obj [("name", .str name)])])
            | none => bA
          else bA
      | none => bA
  | _ => b

/-- Thinking / reasoning support. -/
def addThinking (body b : JVal) : JVal :=
  match body.get "thinking" with
  | some thinking =>
      match thinking.get "enabled" with
      | some (.bool true) =>
          let bB := match thinking.get "budget_tokens" with
            | some budget =>
                objInsert b "reasoning" (JVal.obj [("max_tokens", budget)])
            | none => b
          objInsert bB "thinking" thinking
      | _ => b
  | none => b

/-- Stream options. -/
def addStreamOptions (body b : JVal) : JVal :=
  if (JVal.asBool ((body.get "stream").getD (.bool false))).getD false then
    objInsert b "stream_options" (JVal.obj [("include_usage", .bool true)])
  else b

/-- anthropic_to_openai.rs `transform_request`: dialect-M request body to
dialect-C request body, as the sequence of field insertions of the
source. -/
def transform_request (body : JVal) : JVal :=
  let b0 := JVal.obj
    [("model", (body.get "model").getD (.str "")),
     ("messages", .arr (convertedMessages body)),
     ("max_tokens", (body.get "max_tokens").getD (.int 1024)),
     ("stream", (body.get "stream").getD (.bool false))]
  addStreamOptions body
    (addThinking body (addTools body (addStop body (addTopP body
      (addTemperature body b0)))))

/-! ### Non-streaming C->M response translator (openai_to_anthropic.rs) -/

/-- content_utils.rs `extract_text_from_blocks`. -/
def extract_text_from_blocks (blocks : List JVal) : String :=
  String.intercalate "\n"
    (blocks.filterMap fun b =>
      if (b.get "type").bind JVal.asStr == some "text" then
        (b.get "text").bind JVal.asStr
      else none)

/-- First choice of the response, `choices[0]` with `{}` default. -/
def responseChoice (resp : JVal) : JVal :=
  (((resp.get "choices").bind JVal.asArrOpt).bind List.head?).getD (JVal.obj [])

/-- Message of the first choice, with `{}` default. -/
def responseMessage (resp : JVal) : JVal :=
  ((responseChoice resp).get "message").getD (JVal.obj [])

/-- Fallback tool-use id: the provided id when non-empty, otherwise
`toolu_` plus the first 24 characters of the fresh UUID hex for this
entry position. -/
def responseToolUseId (freshHex : Nat → String) (itc : Nat × JVal) : String :=
  let id := ((itc.2.get "id").bind JVal.asStr).getD ""
  if id = "" then "toolu_" ++ (freshHex itc.1).take 24 else id

/-- One tool-call entry of the non-streaming response, as a `tool_use`
block.  `parse` abstracts `serde_json::from_str` on the arguments string;
`freshHex` is the oracle of UUID hex strings for fallback ids, indexed by
the entry's position. -/
def responseToolUse (parse : String → Option JVal) (freshHex : Nat → String)
    (itc : Nat × JVal) : JVal :=
  let tc := itc.2
  let func := (tc.get "function").getD (JVal.obj [])
  let name := ((func.get "name").bind JVal.asStr).getD ""
  let argsStr := ((func.get "arguments").bind JVal.asStr).getD "\x7b\x7d"
  let args := (parse argsStr).getD (JVal.obj [])
  JVal.obj [("type", .str "tool_use"),
            ("id", .str (responseToolUseId freshHex itc)),
            ("name", .str name), ("input", args)]

/-- Thinking block prefix of the translated content. -/
def responseThinkingPart (resp : JVal) : List JVal :=
  match ((responseMessage resp).get "reasoning_content").bind JVal.asStr with
  | some reasoning =>
      if reasoning ≠ "" then
        [JVal.obj [("type", .str "thinking"), ("thinking", .str reasoning)]]
      else []
  | none => []

/-- Blocks after the optional thinking block: the tool-calls branch, the
tool-result branch, or the plain-text fallback. -/
def responseRest (parse : String → Option JVal) (freshHex : Nat → String)
    (resp : JVal) : List JVal :=
  let message := responseMessage resp
  match message.get "tool_calls" with
  | some (.arr toolCalls) =>
      let textPart :=
        match (message.get "content").bind JVal.asStr with
        | some text =>
            let filtered := strip_hallucinated_tags text
            if filtered ≠ "" then
              [JVal.obj [("type", .str "text"), ("text", .str filtered)]]
            else []
        | none => []
      textPart ++ toolCalls.enum.map (responseToolUse parse freshHex)
  | _ =>
      if (message.get "role").bind JVal.asStr == some "tool"
          || (message.get "tool_call_id").isSome then
        let toolCallId := ((message.get "tool_call_id").bind JVal.asStr).getD ""
        let content : String :=
          match message.get "content" with
          | some (.str s) => s
          | some (.arr a) => extract_text_from_blocks a
          | _ => ""
        [JVal.obj [("type", .str "tool_result"),
                   ("tool_use_id", .str toolCallId),
                   ("content", .str content),
                   ("is_error",
                    .bool (((message.get "is_error").bind JVal.asBool).getD false))]]
      else
        let text := ((message.get "content").bind JVal.asStr).getD ""
        [JVal.obj [("type", .str "text"),
                   ("text", .str (strip_hallucinated_tags text))]]

/-- The translated content blocks of a non-streaming response. -/
def responseContentBlocks (parse : String → Option JVal)
    (freshHex : Nat → String) (resp : JVal) : List JVal :=
  responseThinkingPart resp ++ responseRest parse freshHex resp

/-- openai_to_anthropic.rs `transform_response`: one non-streaming
dialect-C response document to a dialect-M response document.  `msgHex`
models the random UUID hex for the message id. -/
def transform_response (parse : String → Option JVal) (freshHex : Nat → String)
    (msgHex : String) (openaiResponse : JVal) (model : String) : JVal :=
  let usage := (openaiResponse.get "usage").getD (JVal.obj [])
  let inputTokens := ((usage.get "prompt_tokens").bind JVal.asU64).getD 0
  let outputTokens := ((usage.get "completion_tokens").bind JVal.asU64).getD 0
  let finishReason := ((responseChoice openaiResponse).get "finish_reason").bind JVal.asStr
  let stopReason :=
    match finishReason with
    | some fr => map_stop_reason fr
    | none => "end_turn"
  JVal.obj [("id", .str ("msg_" ++ msgHex.take 24)), ("type", .str "message"),
            ("role", .str "assistant"), ("model", .str model),
            ("content", .arr (responseContentBlocks parse freshHex openaiResponse)),
            ("stop_reason", .str stopReason), ("stop_sequence", .null),
            ("usage", JVal.obj [("input_tokens", .int inputTokens),
                                ("output_tokens", .int outputTokens)])]

/-! ### Trace analysis -/

/-- Frame classifier: message_start. -/
def isMessageStart : Frame → Bool
  | .message_start _ _ => true
  | _ => false

/-- Frame classifier: message_delta. -/
def isMessageDelta : Frame → Bool
  | .message_delta _ _ => true
  | _ => false

/-- Frame classifier: message_stop. -/
def isMessageStop : Frame → Bool
  | .message_stop => true
  | _ => false

/-- Frame classifier: the three content-block frame kinds. -/
def isBlockFrame : Frame → Bool
  | .content_block_start _ _ => true
  | .content_block_delta _ _ => true
  | .content_block_stop _ => true
  | _ => false

/-- Index carried by a block frame, if negative (for the index
invariant). -/
def hasNegativeIndex : Frame → Bool
  | .content_block_start i _ => i < 0
  | .content_block_delta i _ => i < 0
  | .content_block_stop i => i < 0
  | _ => false

/-- Indices of the `content_block_start` frames of a trace, in order of
emission. -/
def blockStartIndices (tr : List Frame) : List Int :=
  tr.filterMap fun f =>
    match f with
    | .content_block_start i _ => some i
    | _ => none

/-- Delta classifier: signature_delta. -/
def isSignatureDelta : BDelta → Bool
  | .signature_delta _ => true
  | _ => false

/-- Text of a thinking_delta. -/
def thinkingTextOf : BDelta → Option String
  | .thinking_delta t => some t
  | _ => none

/-- Concatenated thinking fragments of a delta list. -/
def thTextOf (ds : List BDelta) : String :=
  String.join (ds.filterMap thinkingTextOf)

/-- Concatenated partial_json fragments of a delta list. -/
def concatJson (ds : List BDelta) : String :=
  String.join (ds.filterMap fun d =>
    match d with
    | .input_json_delta s => some s
    | _ => none)

/-- State of the block-segmentation scan over a trace: completed tool_use
blocks (id, aggregated json), completed thinking segments (their delta
lists), and the currently open block with its collected deltas. -/
structure ExSt where
  tu : List (String × String)
  th : List (List BDelta)
  cur : Option (Int × CBlock × List BDelta)

/-- Close the currently open segment, recording it by block kind. -/
def exFlush (ex : ExSt) : ExSt :=
  match ex.cur with
  | none => ex
  | some (_, cb, ds) =>
      match cb with
      | .tool_use id _ => { ex with tu := ex.tu ++ [(id, concatJson ds)], cur := none }
      | .thinking => { ex with th := ex.th ++ [ds], cur := none }
      | _ => { ex with cur := none }

/-- One frame of the block-segmentation scan. -/
def exStep (ex : ExSt) (f : Frame) : ExSt :=
  match f with
  | .content_block_start i cb =>
      let ex1 := exFlush ex
      { ex1 with cur := some (i, cb, []) }
  | .content_block_delta _ d =>
      match ex.cur with
      | some (i, cb, ds) => { ex with cur := some (i, cb, ds ++ [d]) }
      | none => ex
  | .content_block_stop _ => exFlush ex
  | _ => ex

/-- Scan a trace. -/
def exRun (tr : List Frame) : ExSt := tr.foldl exStep ⟨[], [], none⟩

/-- The delta lists of the completed thinking blocks of a trace (the
frames strictly between a `content_block_start` of type thinking and its
`content_block_stop`). -/
def thinkingSegs (tr : List Frame) : List (List BDelta) := (exRun tr).th

/-- The completed tool_use blocks of a trace: block id paired with the
concatenation of the `input_json_delta` fragments emitted inside the
block (a block left open at the end of the trace is flushed). -/
def toolBlocks (tr : List Frame) : List (String × String) :=
  (exFlush (exRun tr)).tu

/-! ### Input-side view of tool-call entries (for the aggregation law) -/

/-- Choices array of a parsed chunk. -/
def choicesOf (chunk : JVal) : List JVal :=
  match chunk.get "choices" with
  | some (.arr cs) => cs
  | _ => []

/-- Tool-call entries of one choice (present only when the choice has a
`delta` with a `tool_calls` array). -/
def toolEntriesOfChoice (choice : JVal) : List JVal :=
  match choice.get "delta" with
  | some delta =>
      match delta.get "tool_calls" with
      | some (.arr l) => l
      | _ => []
  | none => []

/-- All tool-call entries carried by a payload, in arrival order. -/
def toolEntriesOfPayload : Payload → List JVal
  | .parsed chunk => (choicesOf chunk).flatMap toolEntriesOfChoice
  | _ => []

/-- All tool-call entries of a payload sequence, in arrival order. -/
def toolEntries (ps : List Payload) : List JVal :=
  ps.flatMap toolEntriesOfPayload

/-- Non-empty arguments fragment of an entry, when present. -/
def argsFragOf (tc : JVal) : Option String :=
  match ((((tc.get "function").getD (JVal.obj [])).get "arguments").bind
          JVal.asStr) with
  | some a => if a ≠ "" then some a else none
  | none => none

/-- Index field of an entry, as the code reads it. -/
def entryIndexOf (tc : JVal) : Int :=
  wrapI32 (((tc.get "index").bind JVal.asI64).getD 0)

/-- Concatenation, in arrival order, of all non-empty arguments fragments
of the entries carrying index `i` (the attribution the claim describes). -/
def argsForIndex (ps : List Payload) (i : Int) : String :=
  String.join ((toolEntries ps).filterMap fun tc =>
    if entryIndexOf tc = i then argsFragOf tc else none)

/-- Input-side grouping of entries by id-bearing entries: an entry whose
`id` is present (as a string) starts a new group; a non-empty arguments
fragment extends the open group and is dropped when no group is open. -/
def specEntryStep (st : List (String × String) × Option (String × String))
    (tc : JVal) : List (String × String) × Option (String × String) :=
  let st1 :=
    match (tc.get "id").bind JVal.asStr with
    | some id => (st.1 ++ st.2.toList, some (id, ""))
    | none => st
  match argsFragOf tc with
  | some a =>
      match st1.2 with
      | some (id, acc) => (st1.1, some (id, acc ++ a))
      | none => st1
  | none => st1

/-- Input-side tool-use blocks of a payload sequence: group the entries by
their id-bearing entries, concatenating the arguments fragments that
arrive while each group is the open one. -/
def specToolBlocks (ps : List Payload) : List (String × String) :=
  let st := (toolEntries ps).foldl specEntryStep ([], none)
  st.1 ++ st.2.toList

/-- Delta restriction under which a choice only carries tool-call data:
no string `reasoning_content`, no string `content`, and no
tool-result-triggering role. -/
def deltaToolOnly (delta : JVal) : Bool :=
  (match delta.get "reasoning_content" with
   | some (.str _) => false
   | _ => true) &&
  (match delta.get "content" with
   | some (.str _) => false
   | _ => true) &&
  (match delta.get "role" with
   | some (.str r) => !(r == "tool" || (delta.get "tool_call_id").isSome)
   | _ => true)

/-- A payload that can only exercise the tool-call path: unparsable, or a
parsed chunk all of whose choices' deltas satisfy `deltaToolOnly`. -/
def payloadToolOnly : Payload → Bool
  | .done => false
  | .unparsed => true
  | .parsed chunk =>
      (choicesOf chunk).all fun c =>
        match c.get "delta" with
        | some delta => deltaToolOnly delta
        | none => true

/-! ### Frame-kind facts: non-terminal processing emits only block frames -/

theorem close_frames_blockOnly (s : TrSt) :
    (close_current_block s).2.all isBlockFrame = true := by
  unfold close_current_block
  split_ifs <;> simp [isBlockFrame]

theorem close_finished (s : TrSt) :
    (close_current_block s).1.finished = s.finished := by
  unfold close_current_block
  split_ifs <;> rfl

theorem pthink_blockOnly (s : TrSt) (r : String) :
    (process_thinking_content s r).2.all isBlockFrame = true ∧
      (process_thinking_content s r).1.finished = s.finished := by
  simp only [process_thinking_content]
  split_ifs <;>
    simp [List.all_append, close_frames_blockOnly, close_finished, isBlockFrame]

theorem ptce_blockOnly (s : TrSt) (tc : JVal) :
    (process_tool_call_entry s tc).2.all isBlockFrame = true ∧
      (process_tool_call_entry s tc).1.finished = s.finished := by
  simp only [process_tool_call_entry]
  cases (tc.get "id").bind JVal.asStr <;>
    cases ((((tc.get "function").getD (JVal.obj [])).get "arguments").bind JVal.asStr) <;>
    dsimp only <;>
    (try split_ifs) <;>
    simp [List.all_append, close_frames_blockOnly, close_finished, isBlockFrame]

theorem ptc_blockOnly (s : TrSt) (l : List JVal) :
    (process_tool_calls s l).2.all isBlockFrame = true ∧
      (process_tool_calls s l).1.finished = s.finished := by
  induction l generalizing s with
  | nil => simp [process_tool_calls]
  | cons tc rest ih =>
    have h1 := ptce_blockOnly s tc
    have h2 := ih (process_tool_call_entry s tc).1
    simp [process_tool_calls, List.all_append, h1.1, h1.2, h2.1, h2.2]

theorem ptrs_blockOnly (s : TrSt) (delta : JVal) :
    (process_tool_result_start s delta).2.all isBlockFrame = true ∧
      (process_tool_result_start s delta).1.finished = s.finished := by
  simp only [process_tool_result_start]
  split_ifs <;>
    simp [List.all_append, close_frames_blockOnly, close_finished, isBlockFrame]

theorem ptrc_blockOnly (s : TrSt) (content : String) :
    (process_tool_result_content s content).2.all isBlockFrame = true ∧
      (process_tool_result_content s content).1.finished = s.finished := by
  simp [process_tool_result_content, isBlockFrame]

theorem ptext_blockOnly (s : TrSt) (content : String) :
    (process_text_content s content).2.all isBlockFrame = true ∧
      (process_text_content s content).1.finished = s.finished := by
  simp only [process_text_content]
  split_ifs <;>
    simp [List.all_append, close_frames_blockOnly, close_finished, isBlockFrame]

theorem stepthink_blockOnly (s : TrSt) (delta : JVal) :
    (step_thinking s delta).2.all isBlockFrame = true ∧
      (step_thinking s delta).1.finished = s.finished := by
  unfold step_thinking
  cases (delta.get "reasoning_content").bind JVal.asStr with
  | none => simp
  | some r => exact pthink_blockOnly s r

theorem steptc_blockOnly (s : TrSt) (delta : JVal) :
    (step_tool_calls s delta).2.all isBlockFrame = true ∧
      (step_tool_calls s delta).1.finished = s.finished := by
  unfold step_tool_calls
  rcases delta.get "tool_calls" with _ | v
  · simp
  · cases v <;> first
      | exact ptc_blockOnly s _
      | simp

theorem steptr_blockOnly (s : TrSt) (delta : JVal) :
    (step_tool_result s delta).2.all isBlockFrame = true ∧
      (step_tool_result s delta).1.finished = s.finished := by
  unfold step_tool_result
  cases (delta.get "role").bind JVal.asStr with
  | none => simp
  | some role =>
    dsimp only
    split_ifs with h
    · exact ptrs_blockOnly s delta
    · simp

theorem steptrc_blockOnly (s : TrSt) (delta : JVal) :
    (step_tool_result_content s delta).2.all isBlockFrame = true ∧
      (step_tool_result_content s delta).1.finished = s.finished := by
  unfold step_tool_result_content
  split_ifs with h
  · cases (delta.get "content").bind JVal.asStr with
    | none => simp
    | some content =>
      dsimp only
      split_ifs with h2
      · exact ptrc_blockOnly s content
      · simp
  · simp

theorem steptext_blockOnly (s : TrSt) (delta : JVal) :
    (step_text s delta).2.all isBlockFrame = true ∧
      (step_text s delta).1.finished = s.finished := by
  unfold step_text
  cases (delta.get "content").bind JVal.asStr with
  | none => simp
  | some content =>
    dsimp only
    split_ifs with h
    · exact ptext_blockOnly s content
    · simp

theorem choice_blockOnly (s : TrSt) (c : JVal) :
    (process_choice s c).2.all isBlockFrame = true ∧
      (process_choice s c).1.finished = s.finished := by
  unfold process_choice
  cases c.get "delta" with
  | none => simp
  | some delta =>
    dsimp only
    have hs : (storeFinishReason s c).finished = s.finished := by
      unfold storeFinishReason
      cases (c.get "finish_reason").bind JVal.asStr <;> rfl
    simp only [List.all_append, Bool.and_eq_true]
    refine ⟨⟨(stepthink_blockOnly _ _).1, (steptc_blockOnly _ _).1,
             (steptr_blockOnly _ _).1, (steptrc_blockOnly _ _).1,
             (steptext_blockOnly _ _).1⟩, ?_⟩
    rw [(steptext_blockOnly _ _).2, (steptrc_blockOnly _ _).2,
        (steptr_blockOnly _ _).2, (steptc_blockOnly _ _).2,
        (stepthink_blockOnly _ _).2, hs]

theorem choices_blockOnly (s : TrSt) (cs : List JVal) :
    (process_choices s cs).2.all isBlockFrame = true ∧
      (process_choices s cs).1.finished = s.finished := by
  induction cs generalizing s with
  | nil => simp [process_choices]
  | cons c rest ih =>
    have h1 := choice_blockOnly s c
    have h2 := ih (process_choice s c).1
    simp [process_choices, List.all_append, h1.1, h1.2, h2.1, h2.2]

theorem chunk_blockOnly (s : TrSt) (p : Payload) (hp : p ≠ Payload.done) :
    (process_chunk s p).2.all isBlockFrame = true ∧
      (process_chunk s p).1.finished = s.finished := by
  cases p with
  | done => exact absurd rfl hp
  | unparsed => simp [process_chunk]
  | parsed chunk =>
    have hu : (updateUsage s chunk).finished = s.finished := by
      unfold updateUsage
      cases chunk.get "usage" with
      | none => rfl
      | some usage =>
        dsimp only
        cases (usage.get "prompt_tokens").bind JVal.asU64 <;>
          cases (usage.get "completion_tokens").bind JVal.asU64 <;> rfl
    unfold process_chunk
    dsimp only
    cases hc : chunk.get "choices" with
    | none => simpa using hu
    | some v =>
      cases v <;> dsimp only <;>
        first
          | exact ⟨(choices_blockOnly _ _).1,
                   ((choices_blockOnly _ _).2).trans hu⟩
          | simpa using hu

/-! ### Trace shape of a full run (terminal framing) -/

theorem chunk_done_shape (s : TrSt) :
    (process_chunk s Payload.done).1.finished = true ∧
      ∃ pre sr ot,
        (process_chunk s Payload.done).2 =
          pre ++ [Frame.message_delta sr ot, Frame.message_stop] ∧
        pre.all isBlockFrame = true := by
  unfold process_chunk
  dsimp only
  constructor
  · rw [close_finished]
  · exact ⟨(close_current_block _).2, _, _, rfl, close_frames_blockOnly _⟩

theorem finish_of_finished (s : TrSt) (h : s.finished = true) :
    (finish s).2 = [] := by
  unfold finish
  simp [h]

theorem finish_shape (s : TrSt) (h : s.finished = false) :
    ∃ pre sr ot,
      (finish s).2 = pre ++ [Frame.message_delta sr ot, Frame.message_stop] ∧
      pre.all isBlockFrame = true := by
  unfold finish
  simp only [h, Bool.false_eq_true, if_false]
  exact ⟨(close_current_block s).2, _, _, rfl, close_frames_blockOnly s⟩

theorem chunk_then_finish_shape (p : Payload) (s : TrSt)
    (hs : s.finished = false) :
    ∃ pre sr ot,
      (process_chunk s p).2 ++ (finish (process_chunk s p).1).2 =
        pre ++ [Frame.message_delta sr ot, Frame.message_stop] ∧
      pre.all isBlockFrame = true := by
  cases p with
  | done =>
    obtain ⟨hfin, pre, sr, ot, heq, hall⟩ := chunk_done_shape s
    refine ⟨pre, sr, ot, ?_, hall⟩
    rw [finish_of_finished _ hfin, heq, List.append_nil]
  | unparsed =>
    obtain ⟨pre, sr, ot, heq, hall⟩ := finish_shape s hs
    exact ⟨pre, sr, ot, by simpa [process_chunk] using heq, hall⟩
  | parsed v =>
    obtain ⟨hall1, hfin1⟩ :=
      chunk_blockOnly s (.parsed v) (fun h => Payload.noConfusion h)
    obtain ⟨pre, sr, ot, heq, hall⟩ :=
      finish_shape (process_chunk s (.parsed v)).1 (hfin1.trans hs)
    refine ⟨(process_chunk s (.parsed v)).2 ++ pre, sr, ot, ?_, ?_⟩
    · rw [heq, List.append_assoc]
    · simp [List.all_append, hall1, hall]

theorem runChunks_cons (s : TrSt) (p : Payload) (rest : List Payload) :
    runChunks s (p :: rest) =
      ((runChunks (process_chunk s p).1 rest).1,
       (process_chunk s p).2 ++ (runChunks (process_chunk s p).1 rest).2) := rfl

theorem runChunks_shape :
    ∀ (ps : List Payload) (s : TrSt), s.finished = false →
      (∀ p ∈ ps.dropLast, p ≠ Payload.done) →
      ∃ pre sr ot,
        (runChunks s ps).2 ++ (finish (runChunks s ps).1).2 =
          pre ++ [Frame.message_delta sr ot, Frame.message_stop] ∧
        pre.all isBlockFrame = true := by
  intro ps
  induction ps with
  | nil =>
    intro s hs _
    simpa [runChunks] using finish_shape s hs
  | cons p rest ih =>
    intro s hs hdone
    cases rest with
    | nil =>
      obtain ⟨pre, sr, ot, heq, hall⟩ := chunk_then_finish_shape p s hs
      refine ⟨pre, sr, ot, ?_, hall⟩
      simpa [runChunks] using heq
    | cons q rest2 =>
      have hp : p ≠ Payload.done := by
        have : p ∈ (p :: q :: rest2).dropLast := by simp
        exact hdone p this
      obtain ⟨hall1, hfin1⟩ := chunk_blockOnly s p hp
      have hdone2 : ∀ x ∈ (q :: rest2).dropLast, x ≠ Payload.done := by
        intro x hx
        refine hdone x ?_
        simp only [List.dropLast_cons₂, List.mem_cons]
        exact Or.inr hx
      obtain ⟨pre, sr, ot, heq, hall⟩ :=
        ih (process_chunk s p).1 (hfin1.trans hs) hdone2
      refine ⟨(process_chunk s p).2 ++ pre, sr, ot, ?_, ?_⟩
      · rw [runChunks_cons]
        dsimp only
        rw [List.append_assoc, heq, List.append_assoc]
      · simp [List.all_append, hall1, hall]

theorem blockFrame_not_msgStart (f : Frame) (h : isBlockFrame f = true) :
    isMessageStart f = false := by
  cases f <;> simp_all [isBlockFrame, isMessageStart]

theorem blockFrame_not_msgDelta (f : Frame) (h : isBlockFrame f = true) :
    isMessageDelta f = false := by
  cases f <;> simp_all [isBlockFrame, isMessageDelta]

theorem blockFrame_not_msgStop (f : Frame) (h : isBlockFrame f = true) :
    isMessageStop f = false := by
  cases f <;> simp_all [isBlockFrame, isMessageStop]

theorem countP_zero_of_all {l : List Frame} {q : Frame → Bool}
    (hl : l.all isBlockFrame = true)
    (h : ∀ f, isBlockFrame f = true → q f = false) : l.countP q = 0 := by
  rw [List.countP_eq_zero]
  intro a ha
  simp [h a (List.all_eq_true.mp hl a ha)]

/-- C2 (amended): provided `[DONE]` is not among the payloads before the
last one, the full trace of start(); process(p1..pn); finish() is one
message_start first, then only content-block frames, then exactly one
message_delta immediately followed by the final message_stop. -/
theorem stream_terminal_framing (model msgHex : String) (ps : List Payload)
    (hdone : ∀ p ∈ ps.dropLast, p ≠ Payload.done) :
    ∃ mid sr ot,
      runAll model msgHex ps =
        Frame.message_start ("msg_" ++ msgHex.take 24) model ::
          (mid ++ [Frame.message_delta sr ot, Frame.message_stop]) ∧
      mid.countP isMessageStart = 0 ∧ mid.countP isMessageDelta = 0 ∧
      mid.countP isMessageStop = 0 := by
  obtain ⟨pre, sr, ot, heq, hall⟩ :=
    runChunks_shape ps (start_event (STnew model msgHex)).1 rfl hdone
  refine ⟨pre, sr, ot, ?_, ?_, ?_, ?_⟩
  · unfold runAll
    dsimp only
    rw [List.append_assoc, heq]
    rfl
  · exact countP_zero_of_all hall blockFrame_not_msgStart
  · exact countP_zero_of_all hall blockFrame_not_msgDelta
  · exact countP_zero_of_all hall blockFrame_not_msgStop

/-- Witness for C2's amended theorem at the one-payload stream `[DONE]`. -/
theorem stream_terminal_framing_witness :
    ∃ mid sr ot,
      runAll "m" "u" [Payload.done] =
        Frame.message_start ("msg_" ++ ("u" : String).take 24) "m" ::
          (mid ++ [Frame.message_delta sr ot, Frame.message_stop]) ∧
      mid.countP isMessageStart = 0 ∧ mid.countP isMessageDelta = 0 ∧
      mid.countP isMessageStop = 0 :=
  stream_terminal_framing "m" "u" [Payload.done] (by simp)

/-- Counterexample to C2 as stated: when the literal `[DONE]` payload
occurs twice, the trace carries two message_stop frames (the `[DONE]`
branch emits the terminal frames again without consulting `finished`),
not exactly one. -/
theorem stream_terminal_framing_cex :
    (runAll "m" "u" [Payload.done, Payload.done]).countP isMessageStop = 2 := by
  rfl

/-- C7: a payload that is not `[DONE]` and fails JSON parsing emits no
frames and leaves the whole translator state unchanged. -/
theorem malformed_payload_noop (s : TrSt) :
    process_chunk s Payload.unparsed = (s, []) := rfl

/-- C1 (code behavior at the failing input): a delta carrying only a
`tool_call_id` (no `role` field) does not perform the tool-result-start
transition — the outer `if let Some(role)` gate fails, so no frame is
emitted and `in_tool_result` stays false, where the claim (and spec rule
4d) requires a `content_block_start` of type tool_result for the
non-empty id `"call_9"`. -/
theorem tool_result_requires_role_field :
    process_chunk (STnew "m" "u")
        (Payload.parsed (.obj [("choices", .arr
          [.obj [("delta", .obj [("tool_call_id", .str "call_9")])]])])) =
      (STnew "m" "u", []) := rfl

/-! ### Contiguity of content-block start indices -/

/-- The list `[a, a+1, …, a+n-1]`. -/
def intRange : Int → Nat → List Int
  | _, 0 => []
  | a, n + 1 => a :: intRange (a + 1) n

theorem intRange_length (a : Int) (n : Nat) : (intRange a n).length = n := by
  induction n generalizing a with
  | zero => rfl
  | succ n ih => simp [intRange, ih]

theorem intRange_append (a : Int) (n m : Nat) :
    intRange a n ++ intRange (a + n) m = intRange a (n + m) := by
  induction n generalizing a with
  | zero => simp [intRange]
  | succ n ih =>
    have h : a + ↑(n + 1) = a + 1 + ↑n := by push_cast; ring
    have h2 : n + 1 + m = (n + m) + 1 := by omega
    rw [h2]
    simp only [intRange, List.cons_append]
    rw [h, ih (a + 1)]

/-- Effect of one processing step on the emitted start indices: they
continue the numbering from `content_index + 1`, and `content_index`
advances by their number. -/
def IdxStep (s : TrSt) (r : TrSt × List Frame) : Prop :=
  blockStartIndices r.2 =
    intRange (s.content_index + 1) (blockStartIndices r.2).length ∧
  r.1.content_index = s.content_index + (blockStartIndices r.2).length

theorem bsi_append (l1 l2 : List Frame) :
    blockStartIndices (l1 ++ l2) = blockStartIndices l1 ++ blockStartIndices l2 := by
  simp [blockStartIndices, List.filterMap_append]

theorem IdxStep.comp {s : TrSt} {r1 r2 : TrSt × List Frame}
    (h1 : IdxStep s r1) (h2 : IdxStep r1.1 r2) :
    IdxStep s (r2.1, r1.2 ++ r2.2) := by
  obtain ⟨e1, c1⟩ := h1
  obtain ⟨e2, c2⟩ := h2
  have hb : blockStartIndices (r1.2 ++ r2.2) =
      blockStartIndices r1.2 ++ blockStartIndices r2.2 := bsi_append ..
  have hlen : (blockStartIndices (r1.2 ++ r2.2)).length =
      (blockStartIndices r1.2).length + (blockStartIndices r2.2).length := by
    rw [hb, List.length_append]
  constructor
  · show blockStartIndices (r1.2 ++ r2.2) = _
    rw [hlen, hb]
    conv_lhs => rw [e1, e2]
    rw [c1]
    have h3 : s.content_index + ↑(blockStartIndices r1.2).length + 1 =
        s.content_index + 1 + ↑(blockStartIndices r1.2).length := by ring
    rw [h3, intRange_append]
  · show r2.1.content_index = _
    rw [hlen, c2, c1]
    push_cast
    ring

theorem IdxStep.nil {s : TrSt} {r : TrSt × List Frame}
    (he : blockStartIndices r.2 = [])
    (hc : r.1.content_index = s.content_index) : IdxStep s r := by
  constructor
  · rw [he]; rfl
  · rw [hc, he]; simp

theorem close_idx (s : TrSt) : IdxStep s (close_current_block s) := by
  refine IdxStep.nil ?_ ?_
  · unfold close_current_block
    split_ifs <;> simp [blockStartIndices]
  · unfold close_current_block
    split_ifs <;> rfl

theorem IdxStep.single {s : TrSt} {r : TrSt × List Frame}
    (hb : blockStartIndices r.2 = [s.content_index + 1])
    (hc : r.1.content_index = s.content_index + 1) : IdxStep s r := by
  constructor
  · rw [hb]
    simp [intRange]
  · rw [hc, hb]
    simp

theorem pthink_idx (s : TrSt) (r : String) :
    IdxStep s (process_thinking_content s r) := by
  simp only [process_thinking_content]
  split_ifs with h1 h2
  · have hclose := close_idx s
    have hopen : IdxStep (close_current_block s).1
        (({ (close_current_block s).1 with
              in_thinking := true
              thinking_content := ""
              content_index := (close_current_block s).1.content_index + 1 } : TrSt),
         [Frame.content_block_start ((close_current_block s).1.content_index + 1)
            CBlock.thinking,
          Frame.content_block_delta ((close_current_block s).1.content_index + 1)
            (BDelta.thinking_delta r)]) := by
      refine IdxStep.single ?_ rfl
      simp [blockStartIndices]
    have := hclose.comp hopen
    simpa [List.append_assoc] using this
  · refine IdxStep.nil ?_ rfl
    simp [blockStartIndices]
  · exact IdxStep.nil rfl rfl

theorem close_bsi (s : TrSt) : blockStartIndices (close_current_block s).2 = [] := by
  unfold close_current_block
  split_ifs <;> simp [blockStartIndices]

theorem close_ci (s : TrSt) :
    (close_current_block s).1.content_index = s.content_index := by
  unfold close_current_block
  split_ifs <;> rfl

theorem IdxStep.close_open {s : TrSt} (s2 : TrSt) (cb : CBlock)
    (tail : List Frame) (hs2 : s2.content_index = s.content_index + 1)
    (htail : blockStartIndices tail = []) :
    IdxStep s (s2, (close_current_block s).2 ++
      (Frame.content_block_start s2.content_index cb :: tail)) := by
  have hb : blockStartIndices ((close_current_block s).2 ++
      (Frame.content_block_start s2.content_index cb :: tail)) =
      [s.content_index + 1] := by
    rw [bsi_append, close_bsi]
    simp only [List.nil_append]
    show s2.content_index :: blockStartIndices tail = _
    rw [htail, hs2]
  exact IdxStep.single hb hs2

theorem IdxStep.close_open2 {s : TrSt} (s2 : TrSt) (cb : CBlock)
    (tail : List Frame)
    (hs2 : s2.content_index = (close_current_block s).1.content_index + 1)
    (htail : blockStartIndices tail = []) :
    IdxStep s (s2, (close_current_block s).2 ++
      (Frame.content_block_start s2.content_index cb :: tail)) :=
  IdxStep.close_open s2 cb tail (by rw [hs2, close_ci]) htail

theorem ptce_idx (s : TrSt) (tc : JVal) : IdxStep s (process_tool_call_entry s tc) := by
  simp only [process_tool_call_entry]
  cases (tc.get "id").bind JVal.asStr with
  | none =>
    cases ((((tc.get "function").getD (JVal.obj [])).get "arguments").bind JVal.asStr) with
    | none => exact IdxStep.nil rfl rfl
    | some args =>
      dsimp only
      split_ifs with h
      · exact IdxStep.nil rfl rfl
      · exact IdxStep.nil (by simp [blockStartIndices]) rfl
  | some id =>
    cases ((((tc.get "function").getD (JVal.obj [])).get "arguments").bind JVal.asStr) with
    | none =>
      dsimp only
      refine IdxStep.close_open2 _ _ [] ?_ ?_ <;> rfl
    | some args =>
      dsimp only
      split_ifs with h
      · rw [List.append_assoc]
        refine IdxStep.close_open2 _ _ _ ?_ ?_
        · rfl
        · simp [blockStartIndices]
      · refine IdxStep.close_open2 _ _ [] ?_ ?_ <;> rfl

theorem ptc_idx (s : TrSt) (l : List JVal) : IdxStep s (process_tool_calls s l) := by
  induction l generalizing s with
  | nil => exact IdxStep.nil rfl rfl
  | cons tc rest ih =>
    exact (ptce_idx s tc).comp (ih (process_tool_call_entry s tc).1)

theorem ptrs_idx (s : TrSt) (delta : JVal) :
    IdxStep s (process_tool_result_start s delta) := by
  simp only [process_tool_result_start]
  split_ifs with h
  · refine IdxStep.close_open2 _ _ [] ?_ ?_ <;> rfl
  · exact IdxStep.nil (close_bsi s) (close_ci s)

theorem ptrc_idx (s : TrSt) (content : String) :
    IdxStep s (process_tool_result_content s content) := by
  refine IdxStep.nil ?_ rfl
  simp [process_tool_result_content, blockStartIndices]

theorem ptext_idx (s : TrSt) (content : String) :
    IdxStep s (process_text_content s content) := by
  simp only [process_text_content]
  split_ifs with h1 h2
  · refine IdxStep.close_open2 _ _ _ ?_ ?_
    · rfl
    · simp [blockStartIndices]
  · exact IdxStep.nil rfl rfl
  · refine IdxStep.nil ?_ rfl
    simp [blockStartIndices]

theorem stepthink_idx (s : TrSt) (delta : JVal) : IdxStep s (step_thinking s delta) := by
  unfold step_thinking
  cases (delta.get "reasoning_content").bind JVal.asStr with
  | none => exact IdxStep.nil rfl rfl
  | some r => exact pthink_idx s r

theorem steptc_idx (s : TrSt) (delta : JVal) : IdxStep s (step_tool_calls s delta) := by
  unfold step_tool_calls
  rcases delta.get "tool_calls" with _ | v
  · exact IdxStep.nil rfl rfl
  · cases v <;> first
      | exact ptc_idx s _
      | exact IdxStep.nil rfl rfl

theorem steptr_idx (s : TrSt) (delta : JVal) : IdxStep s (step_tool_result s delta) := by
  unfold step_tool_result
  cases (delta.get "role").bind JVal.asStr with
  | none => exact IdxStep.nil rfl rfl
  | some role =>
    dsimp only
    split_ifs with h
    · exact ptrs_idx s delta
    · exact IdxStep.nil rfl rfl

theorem steptrc_idx (s : TrSt) (delta : JVal) :
    IdxStep s (step_tool_result_content s delta) := by
  unfold step_tool_result_content
  split_ifs with h
  · cases (delta.get "content").bind JVal.asStr with
    | none => exact IdxStep.nil rfl rfl
    | some content =>
      dsimp only
      split_ifs with h2
      · exact ptrc_idx s content
      · exact IdxStep.nil rfl rfl
  · exact IdxStep.nil rfl rfl

theorem steptext_idx (s : TrSt) (delta : JVal) : IdxStep s (step_text s delta) := by
  unfold step_text
  cases (delta.get "content").bind JVal.asStr with
  | none => exact IdxStep.nil rfl rfl
  | some content =>
    dsimp only
    split_ifs with h
    · exact ptext_idx s content
    · exact IdxStep.nil rfl rfl

theorem choice_idx (s : TrSt) (c : JVal) : IdxStep s (process_choice s c) := by
  unfold process_choice
  cases c.get "delta" with
  | none => exact IdxStep.nil rfl rfl
  | some delta =>
    dsimp only
    have hfr : (storeFinishReason s c).content_index = s.content_index := by
      unfold storeFinishReason
      cases (c.get "finish_reason").bind JVal.asStr <;> rfl
    have h1 := stepthink_idx (storeFinishReason s c) delta
    have h2 := steptc_idx (step_thinking (storeFinishReason s c) delta).1 delta
    have h3 := steptr_idx (step_tool_calls (step_thinking (storeFinishReason s c) delta).1 delta).1 delta
    have h4 := steptrc_idx (step_tool_result (step_tool_calls (step_thinking (storeFinishReason s c) delta).1 delta).1 delta).1 delta
    have h5 := steptext_idx (step_tool_result_content (step_tool_result (step_tool_calls (step_thinking (storeFinishReason s c) delta).1 delta).1 delta).1 delta).1 delta
    have hcomp := h1.comp (h2.comp (h3.comp (h4.comp h5)))
    obtain ⟨hb, hc⟩ := hcomp
    rw [hfr] at hb hc
    exact ⟨hb, hc⟩

theorem choices_idx (s : TrSt) (cs : List JVal) : IdxStep s (process_choices s cs) := by
  induction cs generalizing s with
  | nil => exact IdxStep.nil rfl rfl
  | cons c rest ih =>
    exact (choice_idx s c).comp (ih (process_choice s c).1)

theorem chunk_idx (s : TrSt) (p : Payload) : IdxStep s (process_chunk s p) := by
  cases p with
  | done =>
    unfold process_chunk
    dsimp only
    refine IdxStep.nil ?_ ?_
    · rw [bsi_append, close_bsi]
      rfl
    · rw [close_ci]
  | unparsed => exact IdxStep.nil rfl rfl
  | parsed chunk =>
    have hu : (updateUsage s chunk).content_index = s.content_index := by
      unfold updateUsage
      cases chunk.get "usage" with
      | none => rfl
      | some usage =>
        dsimp only
        cases (usage.get "prompt_tokens").bind JVal.asU64 <;>
          cases (usage.get "completion_tokens").bind JVal.asU64 <;> rfl
    unfold process_chunk
    dsimp only
    cases hc : chunk.get "choices" with
    | none => exact IdxStep.nil rfl hu
    | some v =>
      cases v <;> dsimp only <;>
        first
          | · obtain ⟨hb, hcx⟩ := choices_idx (updateUsage s chunk) _
              rw [hu] at hb hcx
              exact ⟨hb, hcx⟩
          | exact IdxStep.nil rfl hu

theorem finish_idx (s : TrSt) : IdxStep s (finish s) := by
  unfold finish
  split_ifs with h
  · exact IdxStep.nil rfl rfl
  · refine IdxStep.nil ?_ ?_
    · rw [bsi_append, close_bsi]
      rfl
    · rw [close_ci]

theorem runChunks_idx (ps : List Payload) (s : TrSt) : IdxStep s (runChunks s ps) := by
  induction ps generalizing s with
  | nil => exact IdxStep.nil rfl rfl
  | cons p rest ih =>
    exact (chunk_idx s p).comp (ih (process_chunk s p).1)

/-- C4 (amended): in every trace of a full run, the indices carried by the
`content_block_start` frames form the contiguous, strictly increasing
sequence 0, 1, 2, … in order of emission. -/
theorem block_start_indices_contiguous (model msgHex : String) (ps : List Payload) :
    blockStartIndices (runAll model msgHex ps) =
      intRange 0 (blockStartIndices (runAll model msgHex ps)).length := by
  have h := (runChunks_idx ps (start_event (STnew model msgHex)).1).comp
    (finish_idx (runChunks (start_event (STnew model msgHex)).1 ps).1)
  obtain ⟨hb, _⟩ := h
  have htr : runAll model msgHex ps =
      Frame.message_start ("msg_" ++ msgHex.take 24) model ::
        ((runChunks (start_event (STnew model msgHex)).1 ps).2 ++
         (finish (runChunks (start_event (STnew model msgHex)).1 ps).1).2) := rfl
  rw [htr]
  show blockStartIndices ((runChunks _ ps).2 ++ (finish _).2) = _
  rw [hb]
  norm_num
  rfl

/-- Counterexample to C4 as stated: a tool_calls entry carrying only
arguments (no id) arriving before any block has been opened is emitted as
a `content_block_delta` with index −1. -/
theorem negative_index_cex :
    (runAll "m" "u" [Payload.parsed (.obj [("choices", .arr [.obj [("delta",
      .obj [("tool_calls", .arr [.obj [("index", .int 0), ("function",
      .obj [("arguments", .str "x")])]])])]])])]).countP hasNegativeIndex = 1 := by
  rfl

/-! ### Thinking-block well-formedness invariant -/

theorem foldl_append_eq_join (l : List String) :
    ∀ a : String, l.foldl (· ++ ·) a = a ++ String.join l := by
  induction l with
  | nil => intro a; simp [String.join]
  | cons x xs ih =>
    intro a
    show List.foldl (· ++ ·) (a ++ x) xs = _
    rw [ih (a ++ x)]
    have hj : String.join (x :: xs) = x ++ String.join xs := by
      show List.foldl (· ++ ·) ("" ++ x) xs = _
      rw [ih ("" ++ x)]
      simp
    rw [hj, String.append_assoc]

theorem join_append (l1 l2 : List String) :
    String.join (l1 ++ l2) = String.join l1 ++ String.join l2 := by
  show List.foldl (· ++ ·) "" (l1 ++ l2) = _
  rw [List.foldl_append, foldl_append_eq_join]
  rfl

theorem thTextOf_append (ds1 ds2 : List BDelta) :
    thTextOf (ds1 ++ ds2) = thTextOf ds1 ++ thTextOf ds2 := by
  simp [thTextOf, List.filterMap_append, join_append]

theorem thTextOf_single_sig (x : String) :
    thTextOf [BDelta.signature_delta x] = "" := rfl

theorem thTextOf_single_think (t : String) :
    thTextOf [BDelta.thinking_delta t] = t := rfl

/-- A completed thinking segment is well-formed: exactly one
signature_delta, positioned last, and its value is the signature of the
concatenated thinking fragments of the segment. -/
def WfSeg (ds : List BDelta) : Prop :=
  ds.countP isSignatureDelta = 1 ∧
  ds.getLast? = some (BDelta.signature_delta (generate_signature (thTextOf ds)))

/-- Correspondence between the machine flags and the scan's open segment:
with a thinking block open, the open segment's fragments match
`thinking_content` and carry no signature yet; with another block open,
the open segment is of non-thinking kind; otherwise no segment is open. -/
def ThinkMatch (s : TrSt) (cur : Option (Int × CBlock × List BDelta)) : Prop :=
  if s.in_thinking = true then
    ∃ i ds, cur = some (i, CBlock.thinking, ds) ∧
      thTextOf ds = s.thinking_content ∧ ds.countP isSignatureDelta = 0
  else if s.in_tool_call = true ∨ s.in_text_block = true ∨ s.in_tool_result = true then
    ∃ i cb ds, cur = some (i, cb, ds) ∧ cb ≠ CBlock.thinking
  else cur = none

/-- The thinking invariant: open-segment correspondence plus
well-formedness of every completed thinking segment. -/
def ThInv (s : TrSt) (ex : ExSt) : Prop :=
  ThinkMatch s ex.cur ∧ ∀ seg ∈ ex.th, WfSeg seg

theorem exStep_delta_cur (ex : ExSt) (i0 : Int) (j : Int) (cb : CBlock)
    (ds : List BDelta) (d : BDelta) (h : ex.cur = some (j, cb, ds)) :
    exStep ex (Frame.content_block_delta i0 d) =
      { ex with cur := some (j, cb, ds ++ [d]) } := by
  unfold exStep
  rw [h]

theorem exStep_stop_cur (ex : ExSt) (i0 : Int) : exStep ex (Frame.content_block_stop i0) = exFlush ex := rfl

theorem close_thinv (s : TrSt) (ex : ExSt) (h : ThInv s ex) :
    ThInv (close_current_block s).1 ((close_current_block s).2.foldl exStep ex) := by
  obtain ⟨hm, hth⟩ := h
  unfold ThinkMatch at hm
  have hflags : (close_current_block s).1.in_thinking = false ∧
      (close_current_block s).1.in_tool_call = false ∧
      (close_current_block s).1.in_text_block = false ∧
      (close_current_block s).1.in_tool_result = false := by
    unfold close_current_block
    split_ifs <;> exact ⟨rfl, rfl, rfl, rfl⟩
  by_cases ht : s.in_thinking = true
  · rw [if_pos ht] at hm
    obtain ⟨i, ds, hcur, htext, hsig⟩ := hm
    have hframes : (close_current_block s).2 =
        [Frame.content_block_delta s.content_index
           (BDelta.signature_delta (generate_signature s.thinking_content)),
         Frame.content_block_stop s.content_index] := by
      unfold close_current_block
      simp [ht]
    rw [hframes]
    have h1 := exStep_delta_cur ex s.content_index i CBlock.thinking ds
      (BDelta.signature_delta (generate_signature s.thinking_content)) hcur
    simp only [List.foldl]
    rw [h1, exStep_stop_cur]
    have hflush : exFlush { ex with cur := some (i, CBlock.thinking,
        ds ++ [BDelta.signature_delta (generate_signature s.thinking_content)]) } =
        { ex with
            th := ex.th ++ [ds ++
              [BDelta.signature_delta (generate_signature s.thinking_content)]]
            cur := none } := rfl
    rw [hflush]
    constructor
    · unfold ThinkMatch
      rw [if_neg (by simp [hflags.1]), if_neg (by simp [hflags.2.1, hflags.2.2.1, hflags.2.2.2])]
    · intro seg hseg
      rcases List.mem_append.mp hseg with hold | hnew
      · exact hth seg hold
      · have hseg2 : seg = ds ++
            [BDelta.signature_delta (generate_signature s.thinking_content)] := by
          simpa using hnew
        subst hseg2
        constructor
        · rw [List.countP_append, hsig]
          rfl
        · rw [List.getLast?_concat]
          rw [thTextOf_append, thTextOf_single_sig, htext]
          simp
  · have hnt : s.in_thinking = false := by simpa using ht
    rw [if_neg (by simp [hnt])] at hm
    by_cases hother : s.in_tool_call = true ∨ s.in_text_block = true ∨ s.in_tool_result = true
    · rw [if_pos hother] at hm
      obtain ⟨i, cb, ds, hcur, hcb⟩ := hm
      have hframes : (close_current_block s).2 = [Frame.content_block_stop s.content_index] := by
        unfold close_current_block
        have hcond2 : (s.in_tool_call || s.in_text_block || s.in_tool_result) = true := by
          rcases hother with h | h | h <;> simp [h]
        simp [hnt, hcond2]
      rw [hframes]
      simp only [List.foldl]
      rw [exStep_stop_cur]
      have hflush : (exFlush ex).th = ex.th ∧ (exFlush ex).cur = none := by
        unfold exFlush
        rw [hcur]
        cases cb with
        | thinking => exact absurd rfl hcb
        | text => exact ⟨rfl, rfl⟩
        | tool_use a b => exact ⟨rfl, rfl⟩
        | tool_result a b => exact ⟨rfl, rfl⟩
      constructor
      · unfold ThinkMatch
        rw [if_neg (by simp [hflags.1]), if_neg (by simp [hflags.2.1, hflags.2.2.1, hflags.2.2.2])]
        exact hflush.2
      · rw [hflush.1] at *
        intro seg hseg
        exact hth seg hseg
    · rw [if_neg hother] at hm
      have hframes : (close_current_block s).2 = [] := by
        unfold close_current_block
        push_neg at hother
        simp [hnt, hother.1, hother.2.1, hother.2.2]
      rw [hframes]
      simp only [List.foldl]
      constructor
      · unfold ThinkMatch
        rw [if_neg (by simp [hflags.1]), if_neg (by simp [hflags.2.1, hflags.2.2.1, hflags.2.2.2])]
        exact hm
      · exact hth

theorem ThinkMatch_congr {s s2 : TrSt} {cur : Option (Int × CBlock × List BDelta)}
    (h : ThinkMatch s cur)
    (h1 : s2.in_thinking = s.in_thinking) (h2 : s2.in_tool_call = s.in_tool_call)
    (h3 : s2.in_text_block = s.in_text_block)
    (h4 : s2.in_tool_result = s.in_tool_result)
    (h5 : s2.thinking_content = s.thinking_content) : ThinkMatch s2 cur := by
  unfold ThinkMatch at h ⊢
  rw [h1, h2, h3, h4, h5]
  exact h

theorem thinv_state_congr {s s2 : TrSt} {ex : ExSt} (h : ThInv s ex)
    (h1 : s2.in_thinking = s.in_thinking) (h2 : s2.in_tool_call = s.in_tool_call)
    (h3 : s2.in_text_block = s.in_text_block)
    (h4 : s2.in_tool_result = s.in_tool_result)
    (h5 : s2.thinking_content = s.thinking_content) : ThInv s2 ex :=
  ⟨ThinkMatch_congr h.1 h1 h2 h3 h4 h5, h.2⟩

theorem thinv_append_plain_delta (s : TrSt) (ex : ExSt) (i0 : Int) (d : BDelta)
    (h : ThInv s ex) (hd1 : isSignatureDelta d = false)
    (hd2 : thinkingTextOf d = none) :
    ThInv s (exStep ex (Frame.content_block_delta i0 d)) := by
  obtain ⟨hm, hth⟩ := h
  cases hcur : ex.cur with
  | none =>
    unfold exStep
    dsimp only
    rw [hcur]
    exact ⟨hm, hth⟩
  | some icd =>
    obtain ⟨i, cb, ds⟩ := icd
    rw [exStep_delta_cur ex i0 i cb ds d hcur]
    refine ⟨?_, hth⟩
    unfold ThinkMatch at hm ⊢
    rw [hcur] at hm
    split_ifs with ha hb
    · rw [if_pos ha] at hm
      obtain ⟨j, ds2, hc2, htext, hsig⟩ := hm
      rw [Option.some_inj, Prod.mk.injEq, Prod.mk.injEq] at hc2
      obtain ⟨rfl, rfl, rfl⟩ := hc2
      refine ⟨i, ds ++ [d], rfl, ?_, ?_⟩
      · rw [thTextOf_append, htext]
        have hone : thTextOf [d] = "" := by
          simp only [thTextOf, List.filterMap, hd2]
          rfl
        rw [hone]
        simp
      · rw [List.countP_append, hsig]
        simp [List.countP_cons, hd1]
    · rw [if_neg ha, if_pos hb] at hm
      obtain ⟨j, cb2, ds2, hc2, hcb⟩ := hm
      rw [Option.some_inj, Prod.mk.injEq, Prod.mk.injEq] at hc2
      obtain ⟨rfl, rfl, rfl⟩ := hc2
      exact ⟨i, cb, ds ++ [d], rfl, hcb⟩
    · rw [if_neg ha, if_neg hb] at hm
      exact Option.noConfusion hm

theorem close_flags (s : TrSt) :
    (close_current_block s).1.in_thinking = false ∧
    (close_current_block s).1.in_tool_call = false ∧
    (close_current_block s).1.in_text_block = false ∧
    (close_current_block s).1.in_tool_result = false := by
  unfold close_current_block
  split_ifs <;> exact ⟨rfl, rfl, rfl, rfl⟩

theorem thinv_cur_none_of_flags {s : TrSt} {ex : ExSt} (h : ThInv s ex)
    (h1 : s.in_thinking = false) (h2 : s.in_tool_call = false)
    (h3 : s.in_text_block = false) (h4 : s.in_tool_result = false) :
    ex.cur = none := by
  have hm := h.1
  unfold ThinkMatch at hm
  rw [if_neg (by simp [h1]), if_neg (by simp [h2, h3, h4])] at hm
  exact hm

theorem exStep_start_of_none (ex : ExSt) (i : Int) (cb : CBlock)
    (hcur : ex.cur = none) :
    exStep ex (Frame.content_block_start i cb) = { ex with cur := some (i, cb, []) } := by
  unfold exStep exFlush
  rw [hcur]

theorem pthink_thinv (s : TrSt) (r : String) (ex : ExSt) (h : ThInv s ex) :
    ThInv (process_thinking_content s r).1
      (List.foldl exStep ex (process_thinking_content s r).2) := by
  simp only [process_thinking_content]
  split_ifs with h1 h2
  · have hc := close_thinv s ex h
    have hfl := close_flags s
    have hcur1 := thinv_cur_none_of_flags hc hfl.1 hfl.2.1 hfl.2.2.1 hfl.2.2.2
    rw [List.foldl_append, List.foldl_append]
    rw [show List.foldl exStep ex (close_current_block s).2 =
          List.foldl exStep ex (close_current_block s).2 from rfl]
    simp only [List.foldl]
    rw [exStep_start_of_none _ _ _ hcur1]
    rw [exStep_delta_cur _ _ _ CBlock.thinking [] (BDelta.thinking_delta r) rfl]
    constructor
    · unfold ThinkMatch
      rw [if_pos rfl]
      refine ⟨(close_current_block s).1.content_index + 1,
              [BDelta.thinking_delta r], rfl, ?_, ?_⟩
      · rw [thTextOf_single_think]
        rfl
      · rfl
    · exact hc.2
  · have hthink : s.in_thinking = true := by
      simpa using h2
    obtain ⟨hm, hth⟩ := h
    unfold ThinkMatch at hm
    rw [if_pos hthink] at hm
    obtain ⟨i, ds, hcur, htext, hsig⟩ := hm
    simp only [List.foldl]
    rw [exStep_delta_cur _ _ _ CBlock.thinking ds (BDelta.thinking_delta r) hcur]
    constructor
    · unfold ThinkMatch
      rw [if_pos (by exact hthink)]
      refine ⟨i, ds ++ [BDelta.thinking_delta r], rfl, ?_, ?_⟩
      · rw [thTextOf_append, thTextOf_single_think, htext]
      · rw [List.countP_append, hsig]
        rfl
    · exact hth
  · exact h

theorem thinkmatch_nonthinking_open (s2 : TrSt) (i : Int) (cb : CBlock)
    (ds : List BDelta)
    (h1 : s2.in_thinking = false)
    (h2 : s2.in_tool_call = true ∨ s2.in_text_block = true ∨ s2.in_tool_result = true)
    (hcb : cb ≠ CBlock.thinking) :
    ThinkMatch s2 (some (i, cb, ds)) := by
  unfold ThinkMatch
  rw [if_neg (by simp [h1]), if_pos h2]
  exact ⟨i, cb, ds, rfl, hcb⟩

theorem ptce_thinv (s : TrSt) (tc : JVal) (ex : ExSt) (h : ThInv s ex) :
    ThInv (process_tool_call_entry s tc).1
      (List.foldl exStep ex (process_tool_call_entry s tc).2) := by
  simp only [process_tool_call_entry]
  cases (tc.get "id").bind JVal.asStr with
  | none =>
    cases ((((tc.get "function").getD (JVal.obj [])).get "arguments").bind JVal.asStr) with
    | none => exact h
    | some args =>
      dsimp only
      split_ifs with ha
      · simp only [List.foldl]
        refine thinv_state_congr
          (thinv_append_plain_delta s ex s.content_index
            (BDelta.input_json_delta args) h rfl rfl) rfl rfl rfl rfl rfl
      · exact h
  | some id =>
    have hc := close_thinv s ex h
    have hfl := close_flags s
    have hcur1 := thinv_cur_none_of_flags hc hfl.1 hfl.2.1 hfl.2.2.1 hfl.2.2.2
    cases ((((tc.get "function").getD (JVal.obj [])).get "arguments").bind JVal.asStr) with
    | none =>
      dsimp only
      rw [List.foldl_append]
      simp only [List.foldl]
      rw [exStep_start_of_none _ _ _ hcur1]
      constructor
      · refine thinkmatch_nonthinking_open _ _ _ _ ?_ (Or.inl rfl) (by intro hx; cases hx)
        show (close_current_block s).1.in_thinking = false
        exact hfl.1
      · exact hc.2
    | some args =>
      dsimp only
      split_ifs with ha
      · rw [List.foldl_append, List.foldl_append]
        simp only [List.foldl]
        rw [exStep_start_of_none _ _ _ hcur1]
        have hmid : ThInv
            ({ (close_current_block s).1 with
                 in_tool_call := true
                 tool_call_index := some (wrapI32 (((tc.get "index").bind JVal.asI64).getD 0))
                 current_tool_id := id
                 current_tool_name := ((((tc.get "function").getD (JVal.obj [])).get "name").bind JVal.asStr).getD ""
                 current_tool_args := ""
                 content_index := (close_current_block s).1.content_index + 1 } : TrSt)
            { List.foldl exStep ex (close_current_block s).2 with
                cur := some ((close_current_block s).1.content_index + 1,
                  CBlock.tool_use id (((((tc.get "function").getD (JVal.obj [])).get "name").bind JVal.asStr).getD ""), []) } := by
          constructor
          · refine thinkmatch_nonthinking_open _ _ _ _ ?_ (Or.inl rfl) (by intro hx; cases hx)
            show (close_current_block s).1.in_thinking = false
            exact hfl.1
          · exact hc.2
        refine thinv_state_congr
          (thinv_append_plain_delta _ _ _ (BDelta.input_json_delta args) hmid rfl rfl)
          rfl rfl rfl rfl rfl
      · rw [List.foldl_append]
        simp only [List.foldl]
        rw [exStep_start_of_none _ _ _ hcur1]
        constructor
        · refine thinkmatch_nonthinking_open _ _ _ _ ?_ (Or.inl rfl) (by intro hx; cases hx)
          show (close_current_block s).1.in_thinking = false
          exact hfl.1
        · exact hc.2

theorem ptc_thinv (s : TrSt) (l : List JVal) (ex : ExSt) (h : ThInv s ex) :
    ThInv (process_tool_calls s l).1
      (List.foldl exStep ex (process_tool_calls s l).2) := by
  induction l generalizing s ex with
  | nil => exact h
  | cons tc rest ih =>
    show ThInv (process_tool_calls (process_tool_call_entry s tc).1 rest).1 _
    rw [show (process_tool_calls s (tc :: rest)).2 =
          (process_tool_call_entry s tc).2 ++
          (process_tool_calls (process_tool_call_entry s tc).1 rest).2 from rfl]
    rw [List.foldl_append]
    exact ih (process_tool_call_entry s tc).1 _ (ptce_thinv s tc ex h)

theorem ptrs_thinv (s : TrSt) (delta : JVal) (ex : ExSt) (h : ThInv s ex) :
    ThInv (process_tool_result_start s delta).1
      (List.foldl exStep ex (process_tool_result_start s delta).2) := by
  simp only [process_tool_result_start]
  have hc := close_thinv s ex h
  have hfl := close_flags s
  have hcur1 := thinv_cur_none_of_flags hc hfl.1 hfl.2.1 hfl.2.2.1 hfl.2.2.2
  split_ifs with ha
  · rw [List.foldl_append]
    simp only [List.foldl]
    rw [exStep_start_of_none _ _ _ hcur1]
    constructor
    · refine thinkmatch_nonthinking_open _ _ _ _ ?_ (Or.inr (Or.inr rfl))
        (by intro hx; cases hx)
      show (close_current_block s).1.in_thinking = false
      exact hfl.1
    · exact hc.2
  · exact hc

theorem ptrc_thinv (s : TrSt) (content : String) (ex : ExSt) (h : ThInv s ex) :
    ThInv (process_tool_result_content s content).1
      (List.foldl exStep ex (process_tool_result_content s content).2) := by
  simp only [process_tool_result_content, List.foldl]
  refine thinv_state_congr
    (thinv_append_plain_delta s ex s.content_index
      (BDelta.content_delta content) h rfl rfl) rfl rfl rfl rfl rfl

theorem ptext_thinv (s : TrSt) (content : String) (ex : ExSt) (h : ThInv s ex) :
    ThInv (process_text_content s content).1
      (List.foldl exStep ex (process_text_content s content).2) := by
  simp only [process_text_content]
  split_ifs with h1 h2
  · have hc := close_thinv s ex h
    have hfl := close_flags s
    have hcur1 := thinv_cur_none_of_flags hc hfl.1 hfl.2.1 hfl.2.2.1 hfl.2.2.2
    rw [List.foldl_append]
    simp only [List.foldl]
    rw [exStep_start_of_none _ _ _ hcur1]
    rw [exStep_delta_cur _ _ _ CBlock.text []
      (BDelta.text_delta (strip_hallucinated_tags content)) rfl]
    constructor
    · refine thinkmatch_nonthinking_open _ _ _ _ ?_ (Or.inr (Or.inl rfl))
        (by intro hx; cases hx)
      show (close_current_block s).1.in_thinking = false
      exact hfl.1
    · exact hc.2
  · exact h
  · simp only [List.foldl]
    exact thinv_append_plain_delta s ex s.content_index
      (BDelta.text_delta content) h rfl rfl

theorem storeFinishReason_fields (s : TrSt) (c : JVal) :
    (storeFinishReason s c).in_thinking = s.in_thinking ∧
    (storeFinishReason s c).in_tool_call = s.in_tool_call ∧
    (storeFinishReason s c).in_text_block = s.in_text_block ∧
    (storeFinishReason s c).in_tool_result = s.in_tool_result ∧
    (storeFinishReason s c).thinking_content = s.thinking_content := by
  unfold storeFinishReason
  cases (c.get "finish_reason").bind JVal.asStr <;> exact ⟨rfl, rfl, rfl, rfl, rfl⟩

theorem updateUsage_fields (s : TrSt) (chunk : JVal) :
    (updateUsage s chunk).in_thinking = s.in_thinking ∧
    (updateUsage s chunk).in_tool_call = s.in_tool_call ∧
    (updateUsage s chunk).in_text_block = s.in_text_block ∧
    (updateUsage s chunk).in_tool_result = s.in_tool_result ∧
    (updateUsage s chunk).thinking_content = s.thinking_content := by
  unfold updateUsage
  cases chunk.get "usage" with
  | none => exact ⟨rfl, rfl, rfl, rfl, rfl⟩
  | some usage =>
    dsimp only
    cases (usage.get "prompt_tokens").bind JVal.asU64 <;>
      cases (usage.get "completion_tokens").bind JVal.asU64 <;>
      exact ⟨rfl, rfl, rfl, rfl, rfl⟩

theorem stepthink_thinv (s : TrSt) (delta : JVal) (ex : ExSt) (h : ThInv s ex) :
    ThInv (step_thinking s delta).1
      (List.foldl exStep ex (step_thinking s delta).2) := by
  unfold step_thinking
  cases (delta.get "reasoning_content").bind JVal.asStr with
  | none => exact h
  | some r => exact pthink_thinv s r ex h

theorem steptc_thinv (s : TrSt) (delta : JVal) (ex : ExSt) (h : ThInv s ex) :
    ThInv (step_tool_calls s delta).1
      (List.foldl exStep ex (step_tool_calls s delta).2) := by
  unfold step_tool_calls
  rcases delta.get "tool_calls" with _ | v
  · exact h
  · cases v <;> first
      | exact ptc_thinv s _ ex h
      | exact h

theorem steptr_thinv (s : TrSt) (delta : JVal) (ex : ExSt) (h : ThInv s ex) :
    ThInv (step_tool_result s delta).1
      (List.foldl exStep ex (step_tool_result s delta).2) := by
  unfold step_tool_result
  cases (delta.get "role").bind JVal.asStr with
  | none => exact h
  | some role =>
    dsimp only
    split_ifs with ha
    · exact ptrs_thinv s delta ex h
    · exact h

theorem steptrc_thinv (s : TrSt) (delta : JVal) (ex : ExSt) (h : ThInv s ex) :
    ThInv (step_tool_result_content s delta).1
      (List.foldl exStep ex (step_tool_result_content s delta).2) := by
  unfold step_tool_result_content
  split_ifs with ha
  · cases (delta.get "content").bind JVal.asStr with
    | none => exact h
    | some content =>
      dsimp only
      split_ifs with hb
      · exact ptrc_thinv s content ex h
      · exact h
  · exact h

theorem steptext_thinv (s : TrSt) (delta : JVal) (ex : ExSt) (h : ThInv s ex) :
    ThInv (step_text s delta).1
      (List.foldl exStep ex (step_text s delta).2) := by
  unfold step_text
  cases (delta.get "content").bind JVal.asStr with
  | none => exact h
  | some content =>
    dsimp only
    split_ifs with ha
    · exact ptext_thinv s content ex h
    · exact h

theorem choice_thinv (s : TrSt) (c : JVal) (ex : ExSt) (h : ThInv s ex) :
    ThInv (process_choice s c).1
      (List.foldl exStep ex (process_choice s c).2) := by
  unfold process_choice
  cases c.get "delta" with
  | none => exact h
  | some delta =>
    dsimp only
    rw [List.foldl_append, List.foldl_append, List.foldl_append, List.foldl_append]
    have hfr := storeFinishReason_fields s c
    have h0 : ThInv (storeFinishReason s c) ex :=
      thinv_state_congr h hfr.1 hfr.2.1 hfr.2.2.1 hfr.2.2.2.1 hfr.2.2.2.2
    exact steptext_thinv _ delta _
      (steptrc_thinv _ delta _
        (steptr_thinv _ delta _
          (steptc_thinv _ delta _
            (stepthink_thinv _ delta _ h0))))

theorem choices_thinv (s : TrSt) (cs : List JVal) (ex : ExSt) (h : ThInv s ex) :
    ThInv (process_choices s cs).1
      (List.foldl exStep ex (process_choices s cs).2) := by
  induction cs generalizing s ex with
  | nil => exact h
  | cons c rest ih =>
    show ThInv (process_choices (process_choice s c).1 rest).1 _
    rw [show (process_choices s (c :: rest)).2 =
          (process_choice s c).2 ++
          (process_choices (process_choice s c).1 rest).2 from rfl]
    rw [List.foldl_append]
    exact ih (process_choice s c).1 _ (choice_thinv s c ex h)

theorem chunk_thinv (s : TrSt) (p : Payload) (ex : ExSt) (h : ThInv s ex) :
    ThInv (process_chunk s p).1
      (List.foldl exStep ex (process_chunk s p).2) := by
  cases p with
  | done =>
    unfold process_chunk
    dsimp only
    rw [List.foldl_append]
    have h0 : ThInv ({ s with finished := true } : TrSt) ex :=
      thinv_state_congr h rfl rfl rfl rfl rfl
    have hc := close_thinv ({ s with finished := true } : TrSt) ex h0
    unfold terminalEvents
    simp only [List.foldl]
    show ThInv _ (exStep (exStep _ _) _)
    rw [show ∀ ex2 : ExSt, exStep ex2 (Frame.message_delta
          (stopReasonOf (close_current_block { s with finished := true }).1.last_finish_reason)
          (close_current_block { s with finished := true }).1.output_tokens) = ex2
        from fun ex2 => rfl]
    rw [show ∀ ex2 : ExSt, exStep ex2 Frame.message_stop = ex2 from fun ex2 => rfl]
    exact hc
  | unparsed => exact h
  | parsed chunk =>
    unfold process_chunk
    dsimp only
    have hu := updateUsage_fields s chunk
    have h0 : ThInv (updateUsage s chunk) ex :=
      thinv_state_congr h hu.1 hu.2.1 hu.2.2.1 hu.2.2.2.1 hu.2.2.2.2
    cases hc : chunk.get "choices" with
    | none => exact h0
    | some v =>
      cases v <;> dsimp only <;> first
        | exact choices_thinv _ _ ex h0
        | exact h0

theorem finish_thinv (s : TrSt) (ex : ExSt) (h : ThInv s ex) :
    ThInv (finish s).1 (List.foldl exStep ex (finish s).2) := by
  unfold finish
  split_ifs with hf
  · exact h
  · dsimp only
    rw [List.foldl_append]
    have hc := close_thinv s ex h
    unfold terminalEvents
    simp only [List.foldl]
    show ThInv _ (exStep (exStep _ _) _)
    rw [show ∀ ex2 : ExSt, exStep ex2 (Frame.message_delta
          (stopReasonOf (close_current_block s).1.last_finish_reason)
          (close_current_block s).1.output_tokens) = ex2
        from fun ex2 => rfl]
    rw [show ∀ ex2 : ExSt, exStep ex2 Frame.message_stop = ex2 from fun ex2 => rfl]
    exact hc

theorem runChunks_thinv (ps : List Payload) (s : TrSt) (ex : ExSt) (h : ThInv s ex) :
    ThInv (runChunks s ps).1 (List.foldl exStep ex (runChunks s ps).2) := by
  induction ps generalizing s ex with
  | nil => exact h
  | cons p rest ih =>
    show ThInv (runChunks (process_chunk s p).1 rest).1 _
    rw [show (runChunks s (p :: rest)).2 =
          (process_chunk s p).2 ++
          (runChunks (process_chunk s p).1 rest).2 from rfl]
    rw [List.foldl_append]
    exact ih (process_chunk s p).1 _ (chunk_thinv s p ex h)

/-- C5: every completed thinking block of every trace carries exactly one
signature_delta; it is the last delta of the block (immediately preceding
the block's content_block_stop), and its value is the standard padded
base64 of the SHA-256 of the UTF-8 bytes of exactly the thinking
fragments accumulated within that block. -/
theorem thinking_signature_wf (model msgHex : String) (ps : List Payload)
    (seg : List BDelta) (hseg : seg ∈ thinkingSegs (runAll model msgHex ps)) :
    seg.countP isSignatureDelta = 1 ∧
    seg.getLast? =
      some (BDelta.signature_delta (generate_signature (thTextOf seg))) := by
  have h0 : ThInv (start_event (STnew model msgHex)).1 (⟨[], [], none⟩ : ExSt) := by
    constructor
    · unfold ThinkMatch
      rw [if_neg (by simp [start_event, STnew]), if_neg (by simp [start_event, STnew])]
    · intro seg2 hseg2
      cases hseg2
  have h1 := runChunks_thinv ps (start_event (STnew model msgHex)).1 _ h0
  have h2 := finish_thinv (runChunks (start_event (STnew model msgHex)).1 ps).1 _ h1
  have hrun : exRun (runAll model msgHex ps) =
      List.foldl exStep
        (List.foldl exStep (⟨[], [], none⟩ : ExSt)
          (runChunks (start_event (STnew model msgHex)).1 ps).2)
        (finish (runChunks (start_event (STnew model msgHex)).1 ps).1).2 := by
    show List.foldl exStep (⟨[], [], none⟩ : ExSt)
        (Frame.message_start ("msg_" ++ msgHex.take 24) model ::
          ((runChunks (start_event (STnew model msgHex)).1 ps).2 ++
           (finish (runChunks (start_event (STnew model msgHex)).1 ps).1).2)) = _
    rw [List.foldl_cons, List.foldl_append]
    rfl
  unfold thinkingSegs at hseg
  rw [hrun] at hseg
  exact h2.2 seg hseg

/-- Witness for C5 at the one-chunk stream carrying reasoning fragment
"think": the thinking block's deltas are one thinking_delta and one final
signature_delta over the fragment. -/
theorem thinking_signature_wf_witness :
    ([BDelta.thinking_delta "think",
      BDelta.signature_delta (generate_signature "think")].countP isSignatureDelta = 1) ∧
    ([BDelta.thinking_delta "think",
      BDelta.signature_delta (generate_signature "think")].getLast? =
      some (BDelta.signature_delta (generate_signature
        (thTextOf [BDelta.thinking_delta "think",
                   BDelta.signature_delta (generate_signature "think")])))) :=
  thinking_signature_wf "m" "u"
    [Payload.parsed (.obj [("choices", .arr [.obj [("delta",
       .obj [("reasoning_content", .str "think")])]])])]
    [BDelta.thinking_delta "think",
     BDelta.signature_delta (generate_signature "think")]
    (by
      have h : thinkingSegs (runAll "m" "u"
          [Payload.parsed (.obj [("choices", .arr [.obj [("delta",
             .obj [("reasoning_content", .str "think")])]])])]) =
          [[BDelta.thinking_delta "think",
            BDelta.signature_delta (generate_signature "think")]] := rfl
      rw [h]
      exact List.mem_singleton.mpr rfl)

/-- C6: the text sanitizer is idempotent:
`sanitize(sanitize(x)) == sanitize(x)` for every string. -/
theorem strip_hallucinated_tags_idempotent (x : String) :
    strip_hallucinated_tags (strip_hallucinated_tags x) =
      strip_hallucinated_tags x := by
  unfold strip_hallucinated_tags
  rw [show (String.mk (stripLoop x.data)).data = stripLoop x.data from rfl]
  rw [stripLoop_idem]

/-! ### Tool-use aggregation under tool-only streams -/

/-- Invariant relating the machine state, the trace scan and the
input-side grouping while only tool-call data flows: no other block kind
is open, the completed blocks agree, and the open block (when any)
matches the machine's current tool accumulator and the open group. -/
def ToolInv (s : TrSt) (ex : ExSt)
    (sp : List (String × String) × Option (String × String)) : Prop :=
  s.in_thinking = false ∧ s.in_text_block = false ∧ s.in_tool_result = false ∧
  ex.tu = sp.1 ∧
  (if s.in_tool_call = true then
     ∃ i ds, ex.cur = some (i, CBlock.tool_use s.current_tool_id s.current_tool_name, ds) ∧
       concatJson ds = s.current_tool_args ∧
       sp.2 = some (s.current_tool_id, s.current_tool_args)
   else ex.cur = none ∧ sp.2 = none)

theorem toolinv_flush {s : TrSt} {ex : ExSt}
    {sp : List (String × String) × Option (String × String)}
    (h : ToolInv s ex sp) : (exFlush ex).tu = sp.1 ++ sp.2.toList ∧
      (exFlush ex).cur = none := by
  obtain ⟨h1, h2, h3, h4, h5⟩ := h
  by_cases htc : s.in_tool_call = true
  · rw [if_pos htc] at h5
    obtain ⟨i, ds, hcur, hjson, hsp⟩ := h5
    unfold exFlush
    rw [hcur]
    dsimp only
    rw [h4, hjson, hsp]
    exact ⟨rfl, rfl⟩
  · rw [if_neg htc] at h5
    unfold exFlush
    rw [h5.1]
    dsimp only
    rw [h4, h5.2]
    exact ⟨by simp, h5.1⟩

theorem close_toolinv {s : TrSt} {ex : ExSt}
    {sp : List (String × String) × Option (String × String)}
    (h : ToolInv s ex sp) :
    ToolInv (close_current_block s).1
      (List.foldl exStep ex (close_current_block s).2)
      (sp.1 ++ sp.2.toList, none) := by
  have hfl := close_flags s
  obtain ⟨h1, h2, h3, h4, h5⟩ := h
  by_cases htc : s.in_tool_call = true
  · have hframes : (close_current_block s).2 = [Frame.content_block_stop s.content_index] := by
      unfold close_current_block
      simp [h1, htc]
    rw [hframes]
    simp only [List.foldl]
    rw [exStep_stop_cur]
    have hfl2 := toolinv_flush ⟨h1, h2, h3, h4, h5⟩
    refine ⟨hfl.1, hfl.2.2.1, hfl.2.2.2, hfl2.1, ?_⟩
    rw [if_neg (by simp [hfl.2.1])]
    exact ⟨hfl2.2, rfl⟩
  · have hntc : s.in_tool_call = false := by simpa using htc
    have hframes : (close_current_block s).2 = [] := by
      unfold close_current_block
      simp [h1, h2, h3, hntc]
    rw [hframes]
    simp only [List.foldl]
    rw [if_neg htc] at h5
    refine ⟨hfl.1, hfl.2.2.1, hfl.2.2.2, by rw [h4, h5.2]; simp, ?_⟩
    rw [if_neg (by simp [hfl.2.1])]
    exact ⟨h5.1, rfl⟩

theorem concatJson_append (ds1 ds2 : List BDelta) :
    concatJson (ds1 ++ ds2) = concatJson ds1 ++ concatJson ds2 := by
  simp [concatJson, List.filterMap_append, join_append]

theorem concatJson_single (a : String) :
    concatJson [BDelta.input_json_delta a] = a := rfl

theorem ptce_toolinv (s : TrSt) (tc : JVal) (ex : ExSt)
    (sp : List (String × String) × Option (String × String))
    (h : ToolInv s ex sp) :
    ToolInv (process_tool_call_entry s tc).1
      (List.foldl exStep ex (process_tool_call_entry s tc).2)
      (specEntryStep sp tc) := by
  simp only [process_tool_call_entry, specEntryStep, argsFragOf]
  cases (tc.get "id").bind JVal.asStr with
  | some id =>
    have hclosed := close_toolinv h
    have hcur1 : (List.foldl exStep ex (close_current_block s).2).cur = none := by
      have h5 := hclosed.2.2.2.2
      rw [if_neg (by simp [(close_flags s).2.1])] at h5
      exact h5.1
    have hopen : ToolInv
        ({ (close_current_block s).1 with
             in_tool_call := true
             tool_call_index := some (wrapI32 (((tc.get "index").bind JVal.asI64).getD 0))
             current_tool_id := id
             current_tool_name := ((((tc.get "function").getD (JVal.obj [])).get "name").bind JVal.asStr).getD ""
             current_tool_args := ""
             content_index := (close_current_block s).1.content_index + 1 } : TrSt)
        { List.foldl exStep ex (close_current_block s).2 with
            cur := some ((close_current_block s).1.content_index + 1,
              CBlock.tool_use id (((((tc.get "function").getD (JVal.obj [])).get "name").bind JVal.asStr).getD ""), []) }
        (sp.1 ++ sp.2.toList, some (id, "")) := by
      refine ⟨(close_flags s).1, (close_flags s).2.2.1, (close_flags s).2.2.2,
              hclosed.2.2.2.1, ?_⟩
      rw [if_pos rfl]
      exact ⟨(close_current_block s).1.content_index + 1, [], rfl, rfl, rfl⟩
    cases ((((tc.get "function").getD (JVal.obj [])).get "arguments").bind JVal.asStr) with
    | none =>
      dsimp only
      rw [List.foldl_append]
      simp only [List.foldl]
      rw [exStep_start_of_none _ _ _ hcur1]
      exact hopen
    | some args =>
      dsimp only
      split_ifs with ha
      · rw [List.foldl_append, List.foldl_append]
        simp only [List.foldl]
        rw [exStep_start_of_none _ _ _ hcur1]
        rw [exStep_delta_cur _ _ _ _ [] (BDelta.input_json_delta args) rfl]
        refine ⟨hopen.1, hopen.2.1, hopen.2.2.1, hopen.2.2.2.1, ?_⟩
        rw [if_pos rfl]
        refine ⟨(close_current_block s).1.content_index + 1,
                [BDelta.input_json_delta args], rfl, ?_, rfl⟩
        rw [concatJson_single]
        rfl
      · rw [List.foldl_append]
        simp only [List.foldl]
        rw [exStep_start_of_none _ _ _ hcur1]
        exact hopen
  | none =>
    cases ((((tc.get "function").getD (JVal.obj [])).get "arguments").bind JVal.asStr) with
    | none => exact h
    | some args =>
      dsimp only
      split_ifs with ha
      · obtain ⟨h1, h2, h3, h4, h5⟩ := h
        by_cases htc : s.in_tool_call = true
        · rw [if_pos htc] at h5
          obtain ⟨i, ds, hcur, hjson, hsp⟩ := h5
          simp only [List.foldl]
          rw [exStep_delta_cur _ _ _ _ ds (BDelta.input_json_delta args) hcur]
          rw [hsp]
          refine ⟨h1, h2, h3, h4, ?_⟩
          rw [if_pos htc]
          refine ⟨i, ds ++ [BDelta.input_json_delta args], rfl, ?_, rfl⟩
          rw [concatJson_append, concatJson_single, hjson]
        · rw [if_neg htc] at h5
          simp only [List.foldl]
          rw [show exStep ex (Frame.content_block_delta s.content_index
                (BDelta.input_json_delta args)) = ex by
              unfold exStep
              rw [h5.1]]
          rw [h5.2]
          refine ⟨h1, h2, h3, h4, ?_⟩
          rw [if_neg htc]
          exact ⟨h5.1, h5.2⟩
      · exact h

theorem ptc_toolinv (s : TrSt) (l : List JVal) (ex : ExSt)
    (sp : List (String × String) × Option (String × String))
    (h : ToolInv s ex sp) :
    ToolInv (process_tool_calls s l).1
      (List.foldl exStep ex (process_tool_calls s l).2)
      (l.foldl specEntryStep sp) := by
  induction l generalizing s ex sp with
  | nil => exact h
  | cons tc rest ih =>
    show ToolInv (process_tool_calls (process_tool_call_entry s tc).1 rest).1 _ _
    rw [show (process_tool_calls s (tc :: rest)).2 =
          (process_tool_call_entry s tc).2 ++
          (process_tool_calls (process_tool_call_entry s tc).1 rest).2 from rfl]
    rw [List.foldl_append]
    exact ih (process_tool_call_entry s tc).1 _ _ (ptce_toolinv s tc ex sp h)

theorem bind_asStr_none_of_not_str (v : Option JVal)
    (h : (match v with | some (.str _) => false | _ => true) = true) :
    v.bind JVal.asStr = none := by
  cases v with
  | none => rfl
  | some w => cases w <;> simp_all [JVal.asStr]

theorem toolinv_state_congr {s s2 : TrSt} {ex : ExSt}
    {sp : List (String × String) × Option (String × String)}
    (h : ToolInv s ex sp)
    (h1 : s2.in_thinking = s.in_thinking) (h2 : s2.in_text_block = s.in_text_block)
    (h3 : s2.in_tool_result = s.in_tool_result)
    (h4 : s2.in_tool_call = s.in_tool_call)
    (h5 : s2.current_tool_id = s.current_tool_id)
    (h6 : s2.current_tool_name = s.current_tool_name)
    (h7 : s2.current_tool_args = s.current_tool_args) : ToolInv s2 ex sp := by
  obtain ⟨g1, g2, g3, g4, g5⟩ := h
  refine ⟨h1.trans g1, h2.trans g2, h3.trans g3, g4, ?_⟩
  rw [h4, h5, h6, h7]
  exact g5

theorem choice_toolinv (s : TrSt) (c : JVal) (ex : ExSt)
    (sp : List (String × String) × Option (String × String))
    (h : ToolInv s ex sp)
    (hc : (match c.get "delta" with
           | some d => deltaToolOnly d
           | none => true) = true) :
    ToolInv (process_choice s c).1
      (List.foldl exStep ex (process_choice s c).2)
      ((toolEntriesOfChoice c).foldl specEntryStep sp) := by
  unfold process_choice toolEntriesOfChoice
  cases hd : c.get "delta" with
  | none => exact h
  | some delta =>
    rw [hd] at hc
    dsimp only
    unfold deltaToolOnly at hc
    simp only [Bool.and_eq_true] at hc
    obtain ⟨⟨hrc, hct⟩, hrole⟩ := hc
    have hfr := storeFinishReason_fields s c
    have hfr2 : (storeFinishReason s c).in_tool_call = s.in_tool_call ∧
        (storeFinishReason s c).current_tool_id = s.current_tool_id ∧
        (storeFinishReason s c).current_tool_name = s.current_tool_name ∧
        (storeFinishReason s c).current_tool_args = s.current_tool_args := by
      unfold storeFinishReason
      cases (c.get "finish_reason").bind JVal.asStr <;> exact ⟨rfl, rfl, rfl, rfl⟩
    have h0 : ToolInv (storeFinishReason s c) ex sp :=
      toolinv_state_congr h hfr.1 hfr.2.2.1 hfr.2.2.2.1 hfr2.1 hfr2.2.1
        hfr2.2.2.1 hfr2.2.2.2
    have e1 : step_thinking (storeFinishReason s c) delta =
        ((storeFinishReason s c), []) := by
      unfold step_thinking
      rw [bind_asStr_none_of_not_str _ hrc]
    have e3 : ∀ s1 : TrSt, step_tool_result s1 delta = (s1, []) := by
      intro s1
      unfold step_tool_result
      cases hr : delta.get "role" with
      | none => rfl
      | some w =>
        cases w <;> simp_all [JVal.asStr] <;> rw [if_neg (by simp_all)]
    have e4 : ∀ s1 : TrSt, step_tool_result_content s1 delta = (s1, []) := by
      intro s1
      unfold step_tool_result_content
      split_ifs with hh
      · rw [bind_asStr_none_of_not_str _ hct]
      · rfl
    have e5 : ∀ s1 : TrSt, step_text s1 delta = (s1, []) := by
      intro s1
      unfold step_text
      rw [bind_asStr_none_of_not_str _ hct]
    rw [e1]
    dsimp only
    rw [e3, e4, e5]
    dsimp only
    simp only [List.append_nil, List.nil_append]
    unfold step_tool_calls
    cases ht : delta.get "tool_calls" with
    | none => exact h0
    | some v =>
      cases v <;> first
        | exact ptc_toolinv _ _ ex sp h0
        | exact h0

theorem foldl_flatMap {α β γ : Type} (g : α → List β) (f : γ → β → γ)
    (l : List α) (init : γ) :
    (l.flatMap g).foldl f init = l.foldl (fun a x => (g x).foldl f a) init := by
  induction l generalizing init with
  | nil => rfl
  | cons x xs ih =>
    show ((g x ++ xs.flatMap g).foldl f init) = _
    rw [List.foldl_append, ih]
    rfl

theorem choices_toolinv (s : TrSt) (cs : List JVal) (ex : ExSt)
    (sp : List (String × String) × Option (String × String))
    (h : ToolInv s ex sp)
    (hc : (cs.all fun c =>
            match c.get "delta" with
            | some d => deltaToolOnly d
            | none => true) = true) :
    ToolInv (process_choices s cs).1
      (List.foldl exStep ex (process_choices s cs).2)
      (cs.foldl (fun a c => (toolEntriesOfChoice c).foldl specEntryStep a) sp) := by
  induction cs generalizing s ex sp with
  | nil => exact h
  | cons c rest ih =>
    rw [List.all_cons, Bool.and_eq_true] at hc
    show ToolInv (process_choices (process_choice s c).1 rest).1 _ _
    rw [show (process_choices s (c :: rest)).2 =
          (process_choice s c).2 ++
          (process_choices (process_choice s c).1 rest).2 from rfl]
    rw [List.foldl_append]
    exact ih (process_choice s c).1 _ _ (choice_toolinv s c ex sp h hc.1) hc.2

theorem chunk_toolinv (s : TrSt) (p : Payload) (ex : ExSt)
    (sp : List (String × String) × Option (String × String))
    (h : ToolInv s ex sp) (hp : payloadToolOnly p = true) :
    ToolInv (process_chunk s p).1
      (List.foldl exStep ex (process_chunk s p).2)
      ((toolEntriesOfPayload p).foldl specEntryStep sp) := by
  cases p with
  | done => simp [payloadToolOnly] at hp
  | unparsed => exact h
  | parsed chunk =>
    unfold process_chunk toolEntriesOfPayload
    dsimp only
    have hu := updateUsage_fields s chunk
    have hu2 : (updateUsage s chunk).in_tool_call = s.in_tool_call ∧
        (updateUsage s chunk).current_tool_id = s.current_tool_id ∧
        (updateUsage s chunk).current_tool_name = s.current_tool_name ∧
        (updateUsage s chunk).current_tool_args = s.current_tool_args := by
      unfold updateUsage
      cases chunk.get "usage" with
      | none => exact ⟨rfl, rfl, rfl, rfl⟩
      | some usage =>
        dsimp only
        cases (usage.get "prompt_tokens").bind JVal.asU64 <;>
          cases (usage.get "completion_tokens").bind JVal.asU64 <;>
          exact ⟨rfl, rfl, rfl, rfl⟩
    have h0 : ToolInv (updateUsage s chunk) ex sp :=
      toolinv_state_congr h hu.1 hu.2.2.1 hu.2.2.2.1 hu2.1 hu2.2.1 hu2.2.2.1
        hu2.2.2.2
    unfold payloadToolOnly at hp
    dsimp only at hp
    unfold choicesOf at hp ⊢
    cases hcs : chunk.get "choices" with
    | none => exact h0
    | some v =>
      cases v <;>
        first
          | · rw [hcs] at hp
              dsimp only at hp ⊢
              rw [foldl_flatMap]
              exact choices_toolinv _ _ ex sp h0 hp
          | exact h0

theorem runChunks_toolinv (ps : List Payload) (s : TrSt) (ex : ExSt)
    (sp : List (String × String) × Option (String × String))
    (h : ToolInv s ex sp) (hp : ps.all payloadToolOnly = true) :
    ToolInv (runChunks s ps).1
      (List.foldl exStep ex (runChunks s ps).2)
      (ps.foldl (fun a p => (toolEntriesOfPayload p).foldl specEntryStep a) sp) := by
  induction ps generalizing s ex sp with
  | nil => exact h
  | cons p rest ih =>
    rw [List.all_cons, Bool.and_eq_true] at hp
    show ToolInv (runChunks (process_chunk s p).1 rest).1 _ _
    rw [show (runChunks s (p :: rest)).2 =
          (process_chunk s p).2 ++
          (runChunks (process_chunk s p).1 rest).2 from rfl]
    rw [List.foldl_append]
    exact ih (process_chunk s p).1 _ _ (chunk_toolinv s p ex sp h hp.1) hp.2

theorem finish_toolinv {s : TrSt} {ex : ExSt}
    {sp : List (String × String) × Option (String × String)}
    (h : ToolInv s ex sp) :
    (exFlush (List.foldl exStep ex (finish s).2)).tu = sp.1 ++ sp.2.toList := by
  unfold finish
  split_ifs with hf
  · exact (toolinv_flush h).1
  · dsimp only
    rw [List.foldl_append]
    have hc := close_toolinv h
    unfold terminalEvents
    simp only [List.foldl]
    rw [show ∀ ex2 : ExSt, exStep ex2 (Frame.message_delta
          (stopReasonOf (close_current_block s).1.last_finish_reason)
          (close_current_block s).1.output_tokens) = ex2
        from fun ex2 => rfl]
    rw [show ∀ ex2 : ExSt, exStep ex2 Frame.message_stop = ex2 from fun ex2 => rfl]
    have := (toolinv_flush hc).1
    simpa using this

/-- C3 (amended): for a stream whose deltas carry only tool-call data, the
tool_use blocks of the trace — block id with the concatenation of the
input_json_delta fragments emitted inside the block — are exactly the
input-side groups obtained by starting a group at each id-bearing entry
and appending every non-empty arguments fragment to the currently open
group, irrespective of the entries' index fields. -/
theorem tool_block_aggregation (model msgHex : String) (ps : List Payload)
    (h : ps.all payloadToolOnly = true) :
    toolBlocks (runAll model msgHex ps) = specToolBlocks ps := by
  have h0 : ToolInv (start_event (STnew model msgHex)).1 ⟨[], [], none⟩ ([], none) := by
    refine ⟨rfl, rfl, rfl, rfl, ?_⟩
    rw [if_neg (by simp [start_event, STnew])]
    exact ⟨rfl, rfl⟩
  have h1 := runChunks_toolinv ps (start_event (STnew model msgHex)).1
    ⟨[], [], none⟩ ([], none) h0 h
  have h2 := finish_toolinv h1
  have hrun : exRun (runAll model msgHex ps) =
      List.foldl exStep
        (List.foldl exStep (⟨[], [], none⟩ : ExSt)
          (runChunks (start_event (STnew model msgHex)).1 ps).2)
        (finish (runChunks (start_event (STnew model msgHex)).1 ps).1).2 := by
    show List.foldl exStep (⟨[], [], none⟩ : ExSt)
        (Frame.message_start ("msg_" ++ msgHex.take 24) model ::
          ((runChunks (start_event (STnew model msgHex)).1 ps).2 ++
           (finish (runChunks (start_event (STnew model msgHex)).1 ps).1).2)) = _
    rw [List.foldl_cons, List.foldl_append]
    rfl
  unfold toolBlocks
  rw [hrun, h2]
  unfold specToolBlocks toolEntries
  rw [foldl_flatMap]

/-- Witness for C3's amended theorem at a two-fragment tool call: block
"call_1" aggregates both fragments in order. -/
theorem tool_block_aggregation_witness :
    toolBlocks (runAll "m" "u"
      [Payload.parsed (.obj [("choices", .arr [.obj [("delta", .obj
         [("tool_calls", .arr [.obj [("index", .int 0), ("id", .str "call_1"),
            ("function", .obj [("name", .str "f")])]])])]])]),
       Payload.parsed (.obj [("choices", .arr [.obj [("delta", .obj
         [("tool_calls", .arr [.obj [("index", .int 0),
            ("function", .obj [("arguments", .str "fragA")])]])])]])]),
       Payload.parsed (.obj [("choices", .arr [.obj [("delta", .obj
         [("tool_calls", .arr [.obj [("index", .int 0),
            ("function", .obj [("arguments", .str "fragB")])]])])]])])]) =
    specToolBlocks
      [Payload.parsed (.obj [("choices", .arr [.obj [("delta", .obj
         [("tool_calls", .arr [.obj [("index", .int 0), ("id", .str "call_1"),
            ("function", .obj [("name", .str "f")])]])])]])]),
       Payload.parsed (.obj [("choices", .arr [.obj [("delta", .obj
         [("tool_calls", .arr [.obj [("index", .int 0),
            ("function", .obj [("arguments", .str "fragA")])]])])]])]),
       Payload.parsed (.obj [("choices", .arr [.obj [("delta", .obj
         [("tool_calls", .arr [.obj [("index", .int 0),
            ("function", .obj [("arguments", .str "fragB")])]])])]])])] :=
  tool_block_aggregation "m" "u" _ (by rfl)

/-- Counterexample to C3 as stated: with blocks for two interleaved tool
calls (ids "a" at index 0 and "b" at index 1) and a later arguments
fragment "X" attributed by its index field to tool call 0, the code
appends the fragment to the currently open block ("b"), so the block of
the tool call at index 0 aggregates "" while the per-index concatenation
for index 0 is "X". -/
theorem tool_block_aggregation_cex :
    (toolBlocks (runAll "m" "u"
      [Payload.parsed (.obj [("choices", .arr [.obj [("delta", .obj
         [("tool_calls", .arr
           [.obj [("index", .int 0), ("id", .str "a"),
              ("function", .obj [("name", .str "f")])],
            .obj [("index", .int 1), ("id", .str "b"),
              ("function", .obj [("name", .str "g")])]])])]])]),
       Payload.parsed (.obj [("choices", .arr [.obj [("delta", .obj
         [("tool_calls", .arr [.obj [("index", .int 0),
            ("function", .obj [("arguments", .str "X")])]])])]])])]))[0]? ≠
    some ("a", argsForIndex
      [Payload.parsed (.obj [("choices", .arr [.obj [("delta", .obj
         [("tool_calls", .arr
           [.obj [("index", .int 0), ("id", .str "a"),
              ("function", .obj [("name", .str "f")])],
            .obj [("index", .int 1), ("id", .str "b"),
              ("function", .obj [("name", .str "g")])]])])]])]),
       Payload.parsed (.obj [("choices", .arr [.obj [("delta", .obj
         [("tool_calls", .arr [.obj [("index", .int 0),
            ("function", .obj [("arguments", .str "X")])]])])]])])] 0) := by
  decide

/-! ### Assistant-message conversion (C9) -/

/-- Concatenation (no separator) of the text of the text blocks, as the
claim words it. -/
def assistantText (blocks : List JVal) : String :=
  String.join (blocks.filterMap fun b =>
    if blockType b == "text" then (b.get "text").bind JVal.asStr else none)

/-- The tool_calls entry produced for one tool_use block, as the claim
words it. -/
def assistantToolEntry (b : JVal) : JVal :=
  JVal.obj [("id", .str (((b.get "id").bind JVal.asStr).getD "")),
            ("type", .str "function"),
            ("function", JVal.obj
              [("name", .str (((b.get "name").bind JVal.asStr).getD "")),
               ("arguments", .str (jsonToString ((b.get "input").getD (.obj []))))])]

/-- The tool_calls entries of the tool_use blocks, in block order. -/
def assistantTools (blocks : List JVal) : List JVal :=
  blocks.filterMap fun b =>
    if blockType b == "tool_use" then some (assistantToolEntry b) else none

theorem join_cons (t : String) (L : List String) :
    String.join (t :: L) = t ++ String.join L := by
  show List.foldl (· ++ ·) ("" ++ t) L = _
  rw [foldl_append_eq_join]
  simp

theorem assistantStep_foldl (blocks : List JVal) :
    ∀ acc : String × List JVal,
      blocks.foldl assistantStep acc =
        (acc.1 ++ assistantText blocks, acc.2 ++ assistantTools blocks) := by
  induction blocks with
  | nil => intro acc; simp [assistantText, assistantTools, String.join]
  | cons b rest ih =>
    intro acc
    show rest.foldl assistantStep (assistantStep acc b) = _
    rw [ih (assistantStep acc b)]
    unfold assistantStep assistantText assistantTools
    split
    · next heq =>
      cases hbt : (b.get "text").bind JVal.asStr with
      | none =>
        simp only [List.filterMap_cons, heq, hbt]
        simp [assistantText, assistantTools, heq, hbt, String.join]
      | some t =>
        simp only [List.filterMap_cons, heq, hbt]
        simp only [show ((("text" : String) == "text") = true) from rfl, if_pos]
        rw [join_cons]
        simp [assistantText, assistantTools, heq, String.append_assoc]
    · next heq =>
      simp only [List.filterMap_cons, heq]
      simp [assistantText, assistantTools, assistantToolEntry]
    · next x h1 h2 =>
      simp only [List.filterMap_cons]
      rw [if_neg (by simpa using h1), if_neg (by simpa using h2)]

/-- C9: converting a dialect-M assistant message's block content yields a
single assistant message: all text blocks concatenated with no separator
(content present only when non-empty), one tool_calls entry per tool_use
block in block order (tool_calls present only when non-empty), and every
thinking block discarded. -/
theorem assistant_block_conversion (blocks messages : List JVal) :
    convert_content_blocks "assistant" blocks messages =
      messages ++ [JVal.obj
        ([("role", JVal.str "assistant")] ++
         (if assistantText blocks ≠ "" then
            [("content", JVal.str (assistantText blocks))] else []) ++
         (if (assistantTools blocks).isEmpty then [] else
            [("tool_calls", JVal.arr (assistantTools blocks))]))] := by
  unfold convert_content_blocks
  rw [if_neg (by decide), if_pos (by decide)]
  rw [assistantStep_foldl blocks ("", [])]
  dsimp only
  rw [show ("" ++ assistantText blocks) = assistantText blocks by simp]
  rw [show (([] : List JVal) ++ assistantTools blocks) = assistantTools blocks by simp]
  by_cases ht : assistantText blocks ≠ ""
  · rw [if_pos ht, if_pos ht]
    by_cases htc : (assistantTools blocks).isEmpty
    · rw [if_neg (by simpa using htc), if_pos htc]
      rfl
    · rw [if_pos (by simpa using htc), if_neg htc]
      rfl
  · rw [if_neg ht, if_neg ht]
    by_cases htc : (assistantTools blocks).isEmpty
    · rw [if_neg (by simpa using htc), if_pos htc]
      rfl
    · rw [if_pos (by simpa using htc), if_neg htc]
      rfl

theorem lookupField_insertField (fields : List (String × JVal))
    (k k2 : String) (x : JVal) (h : (k == k2) = false) :
    lookupField (insertField fields k x) k2 = lookupField fields k2 := by
  induction fields with
  | nil =>
    unfold insertField lookupField
    rw [h]
    simp
    rfl
  | cons f rest ih =>
    obtain ⟨k1, v1⟩ := f
    unfold insertField
    by_cases hk : (k1 == k) = true
    · rw [if_pos hk]
      unfold lookupField
      have hk1 : k1 = k := by simpa using hk
      rw [hk1, h]
      simp
    · rw [if_neg hk]
      unfold lookupField
      by_cases hk2 : (k1 == k2) = true
      · rw [hk2]
        simp
      · rw [show (k1 == k2) = false from by simpa using hk2]
        simpa using ih

theorem get_objInsert_ne (v : JVal) (k k2 : String) (x : JVal)
    (h : (k == k2) = false) : (objInsert v k x).get k2 = v.get k2 := by
  cases v with
  | obj fields => exact lookupField_insertField fields k k2 x h
  | null => rfl
  | bool b => rfl
  | int n => rfl
  | numF s => rfl
  | str s => rfl
  | arr l => rfl

theorem get_tc_insert (b : JVal) (k : String) (x : JVal)
    (hk : (k == "tool_choice") = false)
    (hb : b.get "tool_choice" = none) :
    (objInsert b k x).get "tool_choice" = none := by
  rw [get_objInsert_ne _ _ _ _ hk]
  exact hb

theorem addTemperature_tc (body b : JVal) (hb : b.get "tool_choice" = none) :
    (addTemperature body b).get "tool_choice" = none := by
  unfold addTemperature
  cases body.get "temperature" with
  | none => exact hb
  | some t => exact get_tc_insert _ _ _ (by decide) hb

theorem addTopP_tc (body b : JVal) (hb : b.get "tool_choice" = none) :
    (addTopP body b).get "tool_choice" = none := by
  unfold addTopP
  cases body.get "top_p" with
  | none => exact hb
  | some t => exact get_tc_insert _ _ _ (by decide) hb

theorem addStop_tc (body b : JVal) (hb : b.get "tool_choice" = none) :
    (addStop body b).get "tool_choice" = none := by
  unfold addStop
  rcases body.get "stop_sequences" with _ | v
  · exact hb
  · cases v <;> first
      | exact get_tc_insert _ _ _ (by decide) hb
      | exact hb

theorem addThinking_tc (body b : JVal) (hb : b.get "tool_choice" = none) :
    (addThinking body b).get "tool_choice" = none := by
  unfold addThinking
  rcases body.get "thinking" with _ | thinking
  · exact hb
  · dsimp only
    rcases thinking.get "enabled" with _ | v
    · exact hb
    · cases v with
      | bool bv =>
        cases bv with
        | false => exact hb
        | true =>
          dsimp only
          cases thinking.get "budget_tokens" with
          | none =>
            refine get_tc_insert _ _ _ ?_ hb
            decide
          | some budget =>
            refine get_tc_insert _ _ _ ?_ (get_tc_insert _ _ _ ?_ hb) <;> decide
      | null => exact hb
      | int n => exact hb
      | numF sf => exact hb
      | str st => exact hb
      | arr l => exact hb
      | obj fs => exact hb

theorem addStreamOptions_tc (body b : JVal) (hb : b.get "tool_choice" = none) :
    (addStreamOptions body b).get "tool_choice" = none := by
  unfold addStreamOptions
  split_ifs with hs
  · exact get_tc_insert _ _ _ (by decide) hb
  · exact hb

theorem addTools_tc_no_array (body b : JVal)
    (h : ∀ l, body.get "tools" ≠ some (JVal.arr l)) :
    addTools body b = b := by
  unfold addTools
  rcases ht : body.get "tools" with _ | v
  · rfl
  · cases v with
    | arr l => exact absurd ht (h l)
    | null => rfl
    | bool bv => rfl
    | int n => rfl
    | numF sf => rfl
    | str st => rfl
    | obj fs => rfl

/-- C10: when the request's `tools` field is absent or not an array, the
translated dialect-C body carries no `tool_choice` field, even when the
input contains one — the tool_choice mapping lives only inside the
tools-as-array branch. -/
theorem no_tool_choice_without_tools (body : JVal)
    (h : ∀ l, body.get "tools" ≠ some (JVal.arr l)) :
    (transform_request body).get "tool_choice" = none := by
  unfold transform_request
  dsimp only
  rw [addTools_tc_no_array body _ h]
  refine addStreamOptions_tc body _ (addThinking_tc body _ (addStop_tc body _
    (addTopP_tc body _ (addTemperature_tc body _ ?_))))
  rfl

/-- Witness for C10 at a body that carries a tool_choice but no tools. -/
theorem no_tool_choice_without_tools_witness :
    (transform_request
      (.obj [("tool_choice", .obj [("type", .str "auto")])])).get "tool_choice" =
      none :=
  no_tool_choice_without_tools
    (.obj [("tool_choice", .obj [("type", .str "auto")])])
    (fun _ hl => Option.noConfusion hl)

/-! ### Non-streaming tool-calls translation (C8) -/

/-- Hexadecimal digit test (for the `toolu_` + 24-hex id form). -/
def isHexChar (c : Char) : Bool :=
  ('0' ≤ c && c ≤ '9') || ('a' ≤ c && c ≤ 'f') || ('A' ≤ c && c ≤ 'F')

/-- Modelled from the spec: the tool input as the claim words it — the
JSON parse of `function.arguments`, or `{}` when parsing fails or the
arguments string is absent. -/
def specToolInput (parse : String → Option JVal) (tc : JVal) : JVal :=
  match (((tc.get "function").getD (JVal.obj [])).get "arguments").bind JVal.asStr with
  | some a => (parse a).getD (JVal.obj [])
  | none => JVal.obj []

/-- Modelled from the spec: one expected `tool_use` block per tool call,
as the claim words it. -/
def specToolUse (parse : String → Option JVal) (freshHex : Nat → String)
    (itc : Nat × JVal) : JVal :=
  JVal.obj [("type", .str "tool_use"),
            ("id", .str (responseToolUseId freshHex itc)),
            ("name", .str (((((itc.2.get "function").getD (JVal.obj [])).get "name").bind JVal.asStr).getD "")),
            ("input", specToolInput parse itc.2)]

/-- Modelled from the spec: the optional leading text block — present when
sanitizing the message content yields a non-empty string. -/
def specTextPart (resp : JVal) : List JVal :=
  match ((responseMessage resp).get "content").bind JVal.asStr with
  | some text =>
      if strip_hallucinated_tags text ≠ "" then
        [JVal.obj [("type", .str "text"),
                   ("text", .str (strip_hallucinated_tags text))]]
      else []
  | none => []

theorem responseToolUse_eq_spec (parse : String → Option JVal)
    (freshHex : Nat → String) (itc : Nat × JVal)
    (hp : parse "\x7b\x7d" = some (JVal.obj [])) :
    responseToolUse parse freshHex itc = specToolUse parse freshHex itc := by
  cases ha : ((((itc.2.get "function").getD (JVal.obj [])).get "arguments").bind JVal.asStr) with
  | some a =>
    simp only [responseToolUse, specToolUse, specToolInput, ha, Option.getD_some]
  | none =>
    simp only [responseToolUse, specToolUse, specToolInput, ha, Option.getD_none]
    rw [hp]
    rfl

/-- C8 (amended): for a response whose first choice's message carries a
tool_calls array, the translated content is the optional thinking block
(when reasoning_content is a non-empty string), then a text block when
sanitizing the content yields a non-empty string, then one tool_use block
per tool call, whose input is the parse of function.arguments (or `{}`
when absent or unparsable) and whose id is the provided non-empty id or a
fresh `toolu_` + 24-hex-character id. -/
theorem response_tool_call_content (parse : String → Option JVal)
    (freshHex : Nat → String) (msgHex model : String) (resp : JVal)
    (tcs : List JVal)
    (hp : parse "\x7b\x7d" = some (JVal.obj []))
    (htc : (responseMessage resp).get "tool_calls" = some (.arr tcs))
    (hhex : ∀ n, ((freshHex n).take 24).length = 24 ∧
             ((freshHex n).take 24).data.all isHexChar = true) :
    (transform_response parse freshHex msgHex resp model).get "content" =
      some (.arr (responseThinkingPart resp ++ specTextPart resp ++
        tcs.enum.map (specToolUse parse freshHex))) ∧
    ∀ e ∈ tcs.enum,
      (((e.2.get "id").bind JVal.asStr).getD "" ≠ "" ∧
        responseToolUseId freshHex e = ((e.2.get "id").bind JVal.asStr).getD "") ∨
      (∃ hx, responseToolUseId freshHex e = "toolu_" ++ hx ∧
        hx.length = 24 ∧ hx.data.all isHexChar = true) := by
  constructor
  · have h1 : (transform_response parse freshHex msgHex resp model).get "content" =
        some (.arr (responseContentBlocks parse freshHex resp)) := rfl
    rw [h1]
    simp only [responseContentBlocks, responseRest]
    rw [htc]
    dsimp only
    have hmap : tcs.enum.map (responseToolUse parse freshHex) =
        tcs.enum.map (specToolUse parse freshHex) :=
      List.map_congr_left fun itc _ => responseToolUse_eq_spec parse freshHex itc hp
    rw [hmap]
    rw [show specTextPart resp =
          (match ((responseMessage resp).get "content").bind JVal.asStr with
           | some text =>
               if strip_hallucinated_tags text ≠ "" then
                 [JVal.obj [("type", .str "text"),
                            ("text", .str (strip_hallucinated_tags text))]]
               else []
           | none => []) from rfl]
    rw [List.append_assoc]
  · intro e _
    by_cases hid : ((e.2.get "id").bind JVal.asStr).getD "" = ""
    · refine Or.inr ⟨(freshHex e.1).take 24, ?_, (hhex e.1).1, (hhex e.1).2⟩
      unfold responseToolUseId
      rw [if_pos hid]
    · refine Or.inl ⟨hid, ?_⟩
      unfold responseToolUseId
      rw [if_neg hid]

/-- Length view of an optional content array (used to separate distinct
content lists without deciding JVal equality). -/
def contentLength : Option JVal → Option Nat
  | some (.arr l) => some l.length
  | _ => none

set_option maxRecDepth 8000 in
/-- Witness for C8's amended theorem at a one-tool-call response. -/
theorem response_tool_call_content_witness :
    (transform_response
        (fun s => if s = "\x7b\x7d" then some (JVal.obj [])
                  else if s = "\x7b\"a\":1\x7d" then some (JVal.obj [("a", .int 1)])
                  else none)
        (fun _ => "0123456789abcdef01234567") "u"
        (.obj [("choices", .arr [.obj [("message", .obj [("tool_calls", .arr
          [.obj [("id", .str "t1"), ("function", .obj [("name", .str "f"),
             ("arguments", .str "\x7b\"a\":1\x7d")])]])])]])]) "m").get "content" =
      some (.arr (responseThinkingPart
          (.obj [("choices", .arr [.obj [("message", .obj [("tool_calls", .arr
            [.obj [("id", .str "t1"), ("function", .obj [("name", .str "f"),
               ("arguments", .str "\x7b\"a\":1\x7d")])]])])]])]) ++
        specTextPart
          (.obj [("choices", .arr [.obj [("message", .obj [("tool_calls", .arr
            [.obj [("id", .str "t1"), ("function", .obj [("name", .str "f"),
               ("arguments", .str "\x7b\"a\":1\x7d")])]])])]])]) ++
        ([.obj [("id", .str "t1"), ("function", .obj [("name", .str "f"),
            ("arguments", .str "\x7b\"a\":1\x7d")])]] : List JVal).enum.map
          (specToolUse
            (fun s => if s = "\x7b\x7d" then some (JVal.obj [])
                      else if s = "\x7b\"a\":1\x7d" then some (JVal.obj [("a", .int 1)])
                      else none)
            (fun _ => "0123456789abcdef01234567")))) ∧
    ∀ e ∈ ([.obj [("id", .str "t1"), ("function", .obj [("name", .str "f"),
              ("arguments", .str "\x7b\"a\":1\x7d")])]] : List JVal).enum,
      (((e.2.get "id").bind JVal.asStr).getD "" ≠ "" ∧
        responseToolUseId (fun _ => "0123456789abcdef01234567") e =
          ((e.2.get "id").bind JVal.asStr).getD "") ∨
      (∃ hx, responseToolUseId (fun _ => "0123456789abcdef01234567") e =
          "toolu_" ++ hx ∧ hx.length = 24 ∧ hx.data.all isHexChar = true) :=
  response_tool_call_content _ _ "u" "m" _ _ (by rfl) (by rfl)
    (by intro n; exact ⟨by decide, by decide⟩)

/-- Counterexample to C8 as stated: a response whose message carries both
reasoning_content and tool_calls translates to content that begins with a
thinking block, so the content is not text-then-tool_use blocks alone. -/
theorem response_tool_call_content_cex :
    ((transform_response
        (fun s => if s = "\x7b\x7d" then some (JVal.obj []) else none)
        (fun _ => "0123456789abcdef01234567") "u"
        (.obj [("choices", .arr [.obj [("message", .obj
          [("reasoning_content", .str "deep"),
           ("tool_calls", .arr [.obj [("id", .str "t1"),
              ("function", .obj [("name", .str "f")])]])])]])]) "m").get "content") ≠
      some (.arr (specTextPart
          (.obj [("choices", .arr [.obj [("message", .obj
            [("reasoning_content", .str "deep"),
             ("tool_calls", .arr [.obj [("id", .str "t1"),
                ("function", .obj [("name", .str "f")])]])])]])]) ++
        ([.obj [("id", .str "t1"),
            ("function", .obj [("name", .str "f")])]] : List JVal).enum.map
          (specToolUse (fun s => if s = "\x7b\x7d" then some (JVal.obj []) else none)
            (fun _ => "0123456789abcdef01234567")))) := by
  intro hcontra
  have h2 : contentLength ((transform_response
        (fun s => if s = "\x7b\x7d" then some (JVal.obj []) else none)
        (fun _ => "0123456789abcdef01234567") "u"
        (.obj [("choices", .arr [.obj [("message", .obj
          [("reasoning_content", .str "deep"),
           ("tool_calls", .arr [.obj [("id", .str "t1"),
              ("function", .obj [("name", .str "f")])]])])]])]) "m").get "content") =
      some 2 := rfl
  rw [hcontra] at h2
  have h1 : contentLength (some (.arr (specTextPart
          (.obj [("choices", .arr [.obj [("message", .obj
            [("reasoning_content", .str "deep"),
             ("tool_calls", .arr [.obj [("id", .str "t1"),
                ("function", .obj [("name", .str "f")])]])])]])]) ++
        ([.obj [("id", .str "t1"),
            ("function", .obj [("name", .str "f")])]] : List JVal).enum.map
          (specToolUse (fun s => if s = "\x7b\x7d" then some (JVal.obj []) else none)
            (fun _ => "0123456789abcdef01234567"))))) = some 1 := rfl
  rw [h1] at h2
  exact absurd h2 (by decide)
